import Mathlib

/-!
Verification of the tapestry pattern-generator module (`src/patterns.rs`):
the coordinate type, the three neighborhood generators, and the Bresenham
line iterator (`line` / `LineIterX::next`).

Iterators are embedded as explicit state machines: `LineIter.next` is the
state-transition function returning `(emitted element, next state)`, and
`LineIter.emit fuel s` collects the elements produced by repeatedly calling
`next`, up to `fuel` calls.  The `f32` fault accumulator of the source is
embedded faithfully: the fault is carried as a rational that is always an
IEEE binary32 value, and every arithmetic step passes through `f32round`
(round to nearest, ties to even).  An idealized exact-arithmetic variant
`LineIterX` serves as a proof intermediary on inputs where the `f32`
computations are provably exact.
-/

/-- 2D integer coordinate.  Modelled from the spec: the `Coord` type is
declared in `src/coord.rs`, which is not among the provided sources; §3 of
the spec describes it as "a pair of signed integers `(x, y)`" whose
arithmetic (`+`, `-`) is component-wise. -/
structure Coord where
  x : ℤ
  y : ℤ
deriving DecidableEq, Repr

instance : Add Coord := ⟨fun a b => ⟨a.x + b.x, a.y + b.y⟩⟩

instance : Sub Coord := ⟨fun a b => ⟨a.x - b.x, a.y - b.y⟩⟩

/-- `Coord::new` constructor. -/
def Coord.new (x y : ℤ) : Coord := ⟨x, y⟩

/-- Scalar multiple of a coordinate (used only in specification statements,
not by the embedded code). -/
def Coord.smul (k : ℤ) (c : Coord) : Coord := ⟨k * c.x, k * c.y⟩

/-- The Moore-neighborhood offset table of `neighborhood` in
`src/patterns.rs` (the array literal in lines 14–23). -/
def mooreOffsets : List Coord :=
  [⟨0, 1⟩, ⟨1, 1⟩, ⟨1, 0⟩, ⟨1, -1⟩, ⟨0, -1⟩, ⟨-1, -1⟩, ⟨-1, 0⟩, ⟨-1, 1⟩]

/-- `neighborhood`: the orthogonal and diagonal (Moore) neighborhood of
`coord`, as the list of elements the returned iterator yields. -/
def neighborhood (coord : Coord) : List Coord :=
  mooreOffsets.map (fun offset => coord + offset)

/-- The offset table of `ortho_neighborhood`. -/
def orthoOffsets : List Coord := [⟨0, 1⟩, ⟨1, 0⟩, ⟨0, -1⟩, ⟨-1, 0⟩]

/-- `ortho_neighborhood`: the orthogonal (Von Neumann) neighborhood. -/
def ortho_neighborhood (coord : Coord) : List Coord :=
  orthoOffsets.map (fun offset => coord + offset)

/-- The offset table of `diag_neighborhood`. -/
def diagOffsets : List Coord := [⟨1, 1⟩, ⟨1, -1⟩, ⟨-1, -1⟩, ⟨-1, 1⟩]

/-- `diag_neighborhood`: the diagonal neighborhood. -/
def diag_neighborhood (coord : Coord) : List Coord :=
  diagOffsets.map (fun offset => coord + offset)

/-- Chebyshev distance between two coordinates: the larger of the two
absolute coordinate deltas (also the major delta magnitude of `line`). -/
def chebDist (a b : Coord) : ℕ := max (b.x - a.x).natAbs (b.y - a.y).natAbs

/-- The smaller of the two absolute coordinate deltas (the minor delta
magnitude of `line`). -/
def minDist (a b : Coord) : ℕ := min (b.x - a.x).natAbs (b.y - a.y).natAbs

/-- Round a rational to the nearest integer, ties to even. -/
def rne (q : ℚ) : ℤ :=
  if q - (⌊q⌋ : ℚ) < 1 / 2 then ⌊q⌋
  else if (1 : ℚ) / 2 < q - (⌊q⌋ : ℚ) then ⌊q⌋ + 1
  else if ⌊q⌋ % 2 = 0 then ⌊q⌋ else ⌊q⌋ + 1

/-- Round a rational to the nearest IEEE binary32 value (round to nearest,
ties to even).  For a nonzero input with `2^e ≤ |q| < 2^(e+1)` the
representable grid has spacing `2^(e-23)`, clamped below at the subnormal
spacing `2^(-149)`.  Values at or beyond the binary32 overflow threshold
(`≈ 2^128`) are not reached by this program (all fault values are bounded by
`2^32`), so no infinity handling is modelled. -/
def f32round (q : ℚ) : ℚ :=
  if q = 0 then 0
  else
    let g : ℚ := 2 ^ (max (Int.log 2 |q| - 23) (-149))
    (rne (q / g) : ℚ) * g

/-- The `as f32` cast of an `i32`. -/
def f32ofInt (n : ℤ) : ℚ := f32round (n : ℚ)

/-- `f32` addition: exact sum, rounded. -/
def f32add (x y : ℚ) : ℚ := f32round (x + y)

/-- `f32` subtraction: exact difference, rounded. -/
def f32sub (x y : ℚ) : ℚ := f32round (x - y)

/-- `f32` division: exact quotient, rounded. -/
def f32div (x y : ℚ) : ℚ := f32round (x / y)

/-- State of the Bresenham line iterator (`struct LineIter` in
`src/patterns.rs`).  The `f32` field `fault` is carried as a rational that
is always an IEEE binary32 value. -/
structure LineIter where
  end_coord : Coord
  next_coord : Coord
  major_step : Coord
  minor_step : Coord
  fault : ℚ
  major_fault : ℤ
  minor_fault : ℤ
  is_finished : Bool
deriving DecidableEq, Repr

/-- `line(from, to)` (`src/patterns.rs` lines 45–73): builds the initial
iterator state; `major_fault as f32 / 2.0` is an `i32→f32` cast followed by
an `f32` division. -/
def line (a b : Coord) : LineIter :=
  let delta := b - a
  let x_step := Coord.new delta.x.sign 0
  let y_step := Coord.new 0 delta.y.sign
  let x_is_major := delta.x.natAbs > delta.y.natAbs
  let major_step := if x_is_major then x_step else y_step
  let minor_step := if x_is_major then y_step else x_step
  let major_fault : ℤ := if x_is_major then delta.x.natAbs else delta.y.natAbs
  let minor_fault : ℤ := if x_is_major then delta.y.natAbs else delta.x.natAbs
  { end_coord := b
    next_coord := a
    major_step := major_step
    minor_step := minor_step
    fault := f32div (f32ofInt major_fault) 2
    major_fault := major_fault
    minor_fault := minor_fault
    is_finished := false }

/-- `LineIter::next` (`src/patterns.rs` lines 93–120): one step of the
iterator, returning the emitted element and the successor state.
`self.fault -= self.minor_fault as f32` and
`self.fault += self.major_fault as f32` each perform one `i32→f32` cast and
one rounded `f32` operation. -/
def LineIter.next (s : LineIter) : Option Coord × LineIter :=
  if s.is_finished then (none, s)
  else if s.next_coord = s.end_coord then
    (some s.end_coord, { s with is_finished := true })
  else
    let return_coord := s.next_coord
    let stepped := s.next_coord + s.major_step
    let fault := f32sub s.fault (f32ofInt s.minor_fault)
    if fault < 0 then
      (some return_coord,
        { s with
            next_coord := stepped + s.minor_step
            fault := f32add fault (f32ofInt s.major_fault) })
    else
      (some return_coord, { s with next_coord := stepped, fault := fault })

/-- Successor state after one `next` call. -/
def LineIter.advance (s : LineIter) : LineIter := s.next.2

/-- The list of coordinates produced by at most `fuel` calls to `next`. -/
def LineIter.emit : ℕ → LineIter → List Coord
  | 0, _ => []
  | fuel + 1, s =>
    match s.next with
    | (none, _) => []
    | (some c, s') => c :: LineIter.emit fuel s'

/-- State of the iterator after `k` calls to `next` starting from
`line a b`. -/
def lineRun (a b : Coord) (k : ℕ) : LineIter := LineIter.advance^[k] (line a b)

/-- Idealized exact-arithmetic variant of `LineIter`: identical state, but
the fault arithmetic is exact rational arithmetic with no rounding.  This is
NOT the program embedding — it is a proof intermediary, related to the
faithful `LineIter` wherever the `f32` computations are provably exact. -/
structure LineIterX where
  end_coord : Coord
  next_coord : Coord
  major_step : Coord
  minor_step : Coord
  fault : ℚ
  major_fault : ℤ
  minor_fault : ℤ
  is_finished : Bool
deriving DecidableEq, Repr

/-- Initial state of the exact-arithmetic variant: as `line`, with the
fault held exactly. -/
def lineX (a b : Coord) : LineIterX :=
  let delta := b - a
  let x_step := Coord.new delta.x.sign 0
  let y_step := Coord.new 0 delta.y.sign
  let x_is_major := delta.x.natAbs > delta.y.natAbs
  let major_step := if x_is_major then x_step else y_step
  let minor_step := if x_is_major then y_step else x_step
  let major_fault : ℤ := if x_is_major then delta.x.natAbs else delta.y.natAbs
  let minor_fault : ℤ := if x_is_major then delta.y.natAbs else delta.x.natAbs
  { end_coord := b
    next_coord := a
    major_step := major_step
    minor_step := minor_step
    fault := (major_fault : ℚ) / 2
    major_fault := major_fault
    minor_fault := minor_fault
    is_finished := false }

/-- One step of the exact-arithmetic variant: as `LineIter.next`, with the
fault updated exactly. -/
def LineIterX.next (s : LineIterX) : Option Coord × LineIterX :=
  if s.is_finished then (none, s)
  else if s.next_coord = s.end_coord then
    (some s.end_coord, { s with is_finished := true })
  else
    let return_coord := s.next_coord
    let stepped := s.next_coord + s.major_step
    let fault := s.fault - (s.minor_fault : ℚ)
    if fault < 0 then
      (some return_coord,
        { s with
            next_coord := stepped + s.minor_step
            fault := fault + (s.major_fault : ℚ) })
    else
      (some return_coord, { s with next_coord := stepped, fault := fault })

/-- Successor state after one `next` call. -/
def LineIterX.advance (s : LineIterX) : LineIterX := s.next.2

/-- The list of coordinates produced by at most `fuel` calls to `next`. -/
def LineIterX.emit : ℕ → LineIterX → List Coord
  | 0, _ => []
  | fuel + 1, s =>
    match s.next with
    | (none, _) => []
    | (some c, s') => c :: LineIterX.emit fuel s'

/-- Modelled from the spec (§4.2, refinement reference for the line tracer):
the same iterator state as `LineIterX`, but with "an integer-valued fault".
All other fields and transitions mirror `LineIterX`. -/
structure LineIterRef where
  end_coord : Coord
  next_coord : Coord
  major_step : Coord
  minor_step : Coord
  fault : ℤ
  major_fault : ℤ
  minor_fault : ℤ
  is_finished : Bool
deriving DecidableEq, Repr

/-- Modelled from the spec: the reference initial state, with the integer
fault "initialized to `major_delta_magnitude / 2`" (integer division). -/
def lineRef (a b : Coord) : LineIterRef :=
  let delta := b - a
  let x_step := Coord.new delta.x.sign 0
  let y_step := Coord.new 0 delta.y.sign
  let x_is_major := delta.x.natAbs > delta.y.natAbs
  let major_step := if x_is_major then x_step else y_step
  let minor_step := if x_is_major then y_step else x_step
  let major_fault : ℤ := if x_is_major then delta.x.natAbs else delta.y.natAbs
  let minor_fault : ℤ := if x_is_major then delta.y.natAbs else delta.x.natAbs
  { end_coord := b
    next_coord := a
    major_step := major_step
    minor_step := minor_step
    fault := major_fault / 2
    major_fault := major_fault
    minor_fault := minor_fault
    is_finished := false }

/-- Modelled from the spec: one step of the reference tracer — the fault is
"decremented every iteration by the minor-axis delta magnitude; whenever the
fault becomes strictly negative, increment it by the major-axis delta
magnitude and also step along the minor axis". -/
def LineIterRef.next (s : LineIterRef) : Option Coord × LineIterRef :=
  if s.is_finished then (none, s)
  else if s.next_coord = s.end_coord then
    (some s.end_coord, { s with is_finished := true })
  else
    let return_coord := s.next_coord
    let stepped := s.next_coord + s.major_step
    let fault := s.fault - s.minor_fault
    if fault < 0 then
      (some return_coord,
        { s with
            next_coord := stepped + s.minor_step
            fault := fault + s.major_fault })
    else
      (some return_coord, { s with next_coord := stepped, fault := fault })

/-- Elements produced by at most `fuel` calls to `LineIterRef.next`. -/
def LineIterRef.emit : ℕ → LineIterRef → List Coord
  | 0, _ => []
  | fuel + 1, s =>
    match s.next with
    | (none, _) => []
    | (some c, s') => c :: LineIterRef.emit fuel s'

/-- Relation coupling a floating-fault state with an integer-fault state:
all fields agree except that the rational fault sits half a unit above the
integer one exactly when the major delta magnitude is odd. -/
structure FaultRel (s : LineIterX) (t : LineIterRef) : Prop where
  ec : s.end_coord = t.end_coord
  nc : s.next_coord = t.next_coord
  ms : s.major_step = t.major_step
  ts : s.minor_step = t.minor_step
  mf : s.major_fault = t.major_fault
  nf : s.minor_fault = t.minor_fault
  fin : s.is_finished = t.is_finished
  mf0 : 0 ≤ s.major_fault
  flt : s.fault = (t.fault : ℚ) + ((s.major_fault % 2 : ℤ) : ℚ) / 2

/-- Smallest `i32` value, `-(2^31)`. -/
def i32Min : ℤ := -2147483648

/-- Largest `i32` value, `2^31 - 1`. -/
def i32Max : ℤ := 2147483647

/-- A single `i32` addition overflows when the mathematical sum leaves the
`i32` range. -/
def addOverflows (m n : ℤ) : Prop := m + n < i32Min ∨ i32Max < m + n

/-- A `Coord + Coord` addition overflows when either component-wise `i32`
addition does. -/
def coordAddOverflows (c d : Coord) : Prop := addOverflows c.x d.x ∨ addOverflows c.y d.y

instance (m n : ℤ) : Decidable (addOverflows m n) := by
  unfold addOverflows; infer_instance

instance (c d : Coord) : Decidable (coordAddOverflows c d) := by
  unfold coordAddOverflows; infer_instance

/-- Two consecutive line coordinates: within one unit on each axis and
distinct. -/
def unitStepClose (c d : Coord) : Prop :=
  (d.x - c.x).natAbs ≤ 1 ∧ (d.y - c.y).natAbs ≤ 1 ∧ c ≠ d

/-- `c` lies in the axis-aligned bounding rectangle of `a` and `b`. -/
def inBBox (a b c : Coord) : Prop :=
  min a.x b.x ≤ c.x ∧ c.x ≤ max a.x b.x ∧ min a.y b.y ≤ c.y ∧ c.y ≤ max a.y b.y

/-- A step from `c` to `d` moves each component in the direction of the
corresponding endpoint delta (monotone along the line from `a` to `b`). -/
def monoStep (a b c d : Coord) : Prop :=
  (a.x ≤ b.x → c.x ≤ d.x) ∧ (b.x ≤ a.x → d.x ≤ c.x) ∧
  (a.y ≤ b.y → c.y ≤ d.y) ∧ (b.y ≤ a.y → d.y ≤ c.y)

/-- Conjunction of all consecutive-step properties of a traced line. -/
def lineStepGood (a b c d : Coord) : Prop := unitStepClose c d ∧ monoStep a b c d

/-- Canonical major step of `lineX a b`. -/
def lineS (a b : Coord) : Coord :=
  if (b - a).x.natAbs > (b - a).y.natAbs then ⟨(b - a).x.sign, 0⟩ else ⟨0, (b - a).y.sign⟩

/-- Canonical minor step of `lineX a b`. -/
def lineT (a b : Coord) : Coord :=
  if (b - a).x.natAbs > (b - a).y.natAbs then ⟨0, (b - a).y.sign⟩ else ⟨(b - a).x.sign, 0⟩

/-- The point the line tracer holds after `k` major steps, `j` of which also
stepped along the minor axis. -/
def linePt (a b : Coord) (k j : ℤ) : Coord :=
  a + Coord.smul k (lineS a b) + Coord.smul j (lineT a b)

/-- Loop invariant of the line tracer relating the running state after some
number of emissions to the endpoints: `k` counts performed major steps, `j`
performed minor steps, and the fault mechanism keeps the scaled integer
fault `M - 2kN + 2jM` inside `[0, 2M)`. -/
structure LineInv (a b : Coord) (k j : ℤ) (s : LineIterX) : Prop where
  fin : s.is_finished = false
  ec : s.end_coord = b
  ms : s.major_step = lineS a b
  ts : s.minor_step = lineT a b
  mf : s.major_fault = (chebDist a b : ℤ)
  nf : s.minor_fault = (minDist a b : ℤ)
  nc : s.next_coord = linePt a b k j
  flt : s.fault = (((chebDist a b : ℤ) - 2 * k * (minDist a b : ℤ) + 2 * j * (chebDist a b : ℤ) : ℤ) : ℚ) / 2
  lb : 0 ≤ (chebDist a b : ℤ) - 2 * k * (minDist a b : ℤ) + 2 * j * (chebDist a b : ℤ)
  ub : (chebDist a b : ℤ) - 2 * k * (minDist a b : ℤ) + 2 * j * (chebDist a b : ℤ) < 2 * (chebDist a b : ℤ)
  k0 : 0 ≤ k
  j0 : 0 ≤ j

/-- State of the iterator after `k` calls to `next` starting from
`lineX a b`. -/
def lineRunX (a b : Coord) (k : ℕ) : LineIterX := LineIterX.advance^[k] (lineX a b)

/-- Coupling of a faithful `f32` state with the exact-arithmetic state: all
fields agree, and the common fault is a half-integer small enough that every
`f32` operation performed on it is exact. -/
structure ExactRel (s : LineIter) (x : LineIterX) : Prop where
  ec : s.end_coord = x.end_coord
  nc : s.next_coord = x.next_coord
  ms : s.major_step = x.major_step
  ts : s.minor_step = x.minor_step
  mf : s.major_fault = x.major_fault
  nf : s.minor_fault = x.minor_fault
  fin : s.is_finished = x.is_finished
  flt : s.fault = x.fault
  half : ∃ n : ℤ, x.fault = (n : ℚ) / 2
  f0 : 0 ≤ x.fault
  fM : x.fault ≤ (x.major_fault : ℚ)
  nf0 : 0 ≤ x.minor_fault
  nfM : x.minor_fault ≤ x.major_fault
  mfB : x.major_fault < 2 ^ 23

/-- Coupling for axis-aligned lines: the minor step is the zero offset, so
the fault branch cannot influence the trajectory and the fault values are
unconstrained. -/
structure AxisRel (s : LineIter) (x : LineIterX) : Prop where
  ec : s.end_coord = x.end_coord
  nc : s.next_coord = x.next_coord
  ms : s.major_step = x.major_step
  ts : s.minor_step = x.minor_step
  mf : s.major_fault = x.major_fault
  nf : s.minor_fault = x.minor_fault
  fin : s.is_finished = x.is_finished
  tz : s.minor_step = (⟨0, 0⟩ : Coord)

/-- Coupling for exact-diagonal lines: the faithful fault is half the
rounded major delta — the value the reset restores on every iteration — and
both sides take the reset branch on every step. -/
structure DiagRel (s : LineIter) (x : LineIterX) : Prop where
  ec : s.end_coord = x.end_coord
  nc : s.next_coord = x.next_coord
  ms : s.major_step = x.major_step
  ts : s.minor_step = x.minor_step
  mf : s.major_fault = x.major_fault
  nf : s.minor_fault = x.minor_fault
  fin : s.is_finished = x.is_finished
  sflt : s.fault = f32ofInt s.major_fault / 2
  xflt : x.fault = (x.major_fault : ℚ) / 2
  diag : x.minor_fault = x.major_fault
  mpos : 0 < x.major_fault

@[simp] theorem Coord.add_x (a b : Coord) : (a + b).x = a.x + b.x := rfl

@[simp] theorem Coord.add_y (a b : Coord) : (a + b).y = a.y + b.y := rfl

@[simp] theorem Coord.sub_x (a b : Coord) : (a - b).x = a.x - b.x := rfl

@[simp] theorem Coord.sub_y (a b : Coord) : (a - b).y = a.y - b.y := rfl

@[simp] theorem Coord.smul_x (k : ℤ) (c : Coord) : (Coord.smul k c).x = k * c.x := rfl

@[simp] theorem Coord.smul_y (k : ℤ) (c : Coord) : (Coord.smul k c).y = k * c.y := rfl

theorem Coord.ext_iff {a b : Coord} : a = b ↔ a.x = b.x ∧ a.y = b.y := by
  constructor
  · rintro rfl; exact ⟨rfl, rfl⟩
  · rintro ⟨hx, hy⟩; cases a; cases b; simp_all

theorem faultRel_lineX (a b : Coord) : FaultRel (lineX a b) (lineRef a b) := by
  have h2 : ∀ m : ℤ, 0 ≤ m → (m : ℚ) / 2 = ((m / 2 : ℤ) : ℚ) + ((m % 2 : ℤ) : ℚ) / 2 := by
    intro m _
    have hm : 2 * (m / 2) + m % 2 = m := Int.ediv_add_emod m 2
    have : (m : ℚ) = 2 * ((m / 2 : ℤ) : ℚ) + ((m % 2 : ℤ) : ℚ) := by
      exact_mod_cast congrArg (fun z : ℤ => (z : ℚ)) hm.symm
    rw [this]; ring
  constructor <;> simp only [lineX, lineRef] <;> try rfl
  · split <;> positivity
  · split <;> exact h2 _ (by positivity)

theorem fault_test_iff (fQ : ℚ) (fI n m : ℤ) (_hm : 0 ≤ m)
    (hflt : fQ = (fI : ℚ) + ((m % 2 : ℤ) : ℚ) / 2) :
    (fQ - (n : ℚ) < 0 ↔ fI - n < 0) := by
  have h0 : (0 : ℤ) ≤ m % 2 := Int.emod_nonneg m (by norm_num)
  have h1 : m % 2 < 2 := Int.emod_lt_of_pos m (by norm_num)
  have h0' : (0 : ℚ) ≤ ((m % 2 : ℤ) : ℚ) := by exact_mod_cast h0
  have h1' : ((m % 2 : ℤ) : ℚ) ≤ 1 := by exact_mod_cast (by omega : m % 2 ≤ 1)
  subst hflt
  constructor
  · intro h
    have hlt : (fI : ℚ) - n < 0 := by linarith
    exact_mod_cast by exact_mod_cast hlt
  · intro h
    have hle : fI - n ≤ -1 := by omega
    have hc : (fI : ℚ) - n ≤ -1 := by exact_mod_cast hle
    linarith


theorem LineIterX.nextX_eq (s : LineIterX) :
    s.next =
      if s.is_finished then (none, s)
      else if s.next_coord = s.end_coord then (some s.end_coord, { s with is_finished := true })
      else (some s.next_coord,
        if s.fault - (s.minor_fault : ℚ) < 0 then
          { s with
              next_coord := s.next_coord + s.major_step + s.minor_step
              fault := s.fault - (s.minor_fault : ℚ) + (s.major_fault : ℚ) }
        else
          { s with
              next_coord := s.next_coord + s.major_step
              fault := s.fault - (s.minor_fault : ℚ) }) := by
  unfold LineIterX.next
  split
  · rfl
  · split
    · rfl
    · dsimp only
      split <;> rfl

theorem LineIterX.nextX_finished {s : LineIterX} (h : s.is_finished = true) :
    s.next = (none, s) := by
  rw [LineIterX.nextX_eq, h, if_pos rfl]

theorem LineIterX.nextX_emit_end {s : LineIterX} (h : s.is_finished = false)
    (h2 : s.next_coord = s.end_coord) :
    s.next = (some s.end_coord, { s with is_finished := true }) := by
  rw [LineIterX.nextX_eq, h, if_neg Bool.false_ne_true, if_pos h2]

theorem LineIterX.nextX_step {s : LineIterX} (h : s.is_finished = false)
    (h2 : s.next_coord ≠ s.end_coord) :
    s.next = (some s.next_coord,
      if s.fault - (s.minor_fault : ℚ) < 0 then
        { s with
            next_coord := s.next_coord + s.major_step + s.minor_step
            fault := s.fault - (s.minor_fault : ℚ) + (s.major_fault : ℚ) }
      else
        { s with
            next_coord := s.next_coord + s.major_step
            fault := s.fault - (s.minor_fault : ℚ) }) := by
  rw [LineIterX.nextX_eq, h, if_neg Bool.false_ne_true, if_neg h2]

theorem LineIterRef.nextRef_eq (s : LineIterRef) :
    s.next =
      if s.is_finished then (none, s)
      else if s.next_coord = s.end_coord then (some s.end_coord, { s with is_finished := true })
      else (some s.next_coord,
        if s.fault - s.minor_fault < 0 then
          { s with
              next_coord := s.next_coord + s.major_step + s.minor_step
              fault := s.fault - s.minor_fault + s.major_fault }
        else
          { s with
              next_coord := s.next_coord + s.major_step
              fault := s.fault - s.minor_fault }) := by
  unfold LineIterRef.next
  split
  · rfl
  · split
    · rfl
    · dsimp only
      split <;> rfl

theorem LineIterRef.nextRef_finished {s : LineIterRef} (h : s.is_finished = true) :
    s.next = (none, s) := by
  rw [LineIterRef.nextRef_eq, h, if_pos rfl]

theorem LineIterRef.nextRef_emit_end {s : LineIterRef} (h : s.is_finished = false)
    (h2 : s.next_coord = s.end_coord) :
    s.next = (some s.end_coord, { s with is_finished := true }) := by
  rw [LineIterRef.nextRef_eq, h, if_neg Bool.false_ne_true, if_pos h2]

theorem LineIterRef.nextRef_step {s : LineIterRef} (h : s.is_finished = false)
    (h2 : s.next_coord ≠ s.end_coord) :
    s.next = (some s.next_coord,
      if s.fault - s.minor_fault < 0 then
        { s with
            next_coord := s.next_coord + s.major_step + s.minor_step
            fault := s.fault - s.minor_fault + s.major_fault }
      else
        { s with
            next_coord := s.next_coord + s.major_step
            fault := s.fault - s.minor_fault }) := by
  rw [LineIterRef.nextRef_eq, h, if_neg Bool.false_ne_true, if_neg h2]

theorem faultRel_next {s : LineIterX} {t : LineIterRef} (h : FaultRel s t) :
    s.next.1 = t.next.1 ∧ FaultRel s.next.2 t.next.2 := by
  have hmf0 : (0 : ℤ) ≤ t.major_fault := h.mf ▸ h.mf0
  have htest : (s.fault - (s.minor_fault : ℚ) < 0) ↔ (t.fault - t.minor_fault < 0) := by
    rw [h.nf]
    exact fault_test_iff s.fault t.fault t.minor_fault t.major_fault hmf0 (by rw [h.flt, h.mf])
  cases hfin : s.is_finished with
  | true =>
    have hfin' : t.is_finished = true := by rw [← h.fin]; exact hfin
    rw [LineIterX.nextX_finished hfin, LineIterRef.nextRef_finished hfin']
    exact ⟨rfl, h⟩
  | false =>
    have hfin' : t.is_finished = false := by rw [← h.fin]; exact hfin
    by_cases h2 : s.next_coord = s.end_coord
    · have h2' : t.next_coord = t.end_coord := by rw [← h.nc, ← h.ec]; exact h2
      rw [LineIterX.nextX_emit_end hfin h2, LineIterRef.nextRef_emit_end hfin' h2']
      exact ⟨by rw [h.ec], h.ec, h.nc, h.ms, h.ts, h.mf, h.nf, rfl, h.mf0, h.flt⟩
    · have h2' : t.next_coord ≠ t.end_coord := by rw [← h.nc, ← h.ec]; exact h2
      rw [LineIterX.nextX_step hfin h2, LineIterRef.nextRef_step hfin' h2']
      refine ⟨by rw [h.nc], ?_⟩
      by_cases h3 : t.fault - t.minor_fault < 0
      · rw [if_pos (htest.mpr h3), if_pos h3]
        exact ⟨h.ec, by rw [h.nc, h.ms, h.ts], h.ms, h.ts, h.mf, h.nf, h.fin, h.mf0,
          by rw [h.flt, h.nf, h.mf]; push_cast; ring⟩
      · rw [if_neg (fun hc => h3 (htest.mp hc)), if_neg h3]
        exact ⟨h.ec, by rw [h.nc, h.ms], h.ms, h.ts, h.mf, h.nf, h.fin, h.mf0,
          by rw [h.flt, h.nf]; push_cast; ring⟩

theorem faultRel_emit {s : LineIterX} {t : LineIterRef} (h : FaultRel s t) :
    ∀ fuel : ℕ, LineIterX.emit fuel s = LineIterRef.emit fuel t := by
  intro fuel
  induction fuel generalizing s t with
  | zero => rfl
  | succ n ih =>
    obtain ⟨hout, hrel⟩ := faultRel_next h
    rcases hs : s.next with ⟨o, s'⟩
    rcases ht : t.next with ⟨o', t'⟩
    rw [hs, ht] at hout hrel
    dsimp only at hout hrel
    subst hout
    simp only [LineIterX.emit, LineIterRef.emit, hs, ht]
    cases o with
    | none => rfl
    | some c =>
      simp only
      rw [ih hrel]

/-- The coordinate sequence of the implemented tracer coincides with the
integer-fault reference for every fuel bound. -/
theorem lineX_emit_eq_ref (a b : Coord) (fuel : ℕ) :
    LineIterX.emit fuel (lineX a b) = LineIterRef.emit fuel (lineRef a b) :=
  faultRel_emit (faultRel_lineX a b) fuel



theorem lineX_major_step (a b : Coord) : (lineX a b).major_step = lineS a b := rfl

theorem lineX_minor_step (a b : Coord) : (lineX a b).minor_step = lineT a b := rfl

theorem lineX_major_fault (a b : Coord) : (lineX a b).major_fault = (chebDist a b : ℤ) := by
  simp only [lineX, chebDist, Coord.sub_x, Coord.sub_y]
  split <;> omega

theorem lineX_minor_fault (a b : Coord) : (lineX a b).minor_fault = (minDist a b : ℤ) := by
  simp only [lineX, minDist, Coord.sub_x, Coord.sub_y]
  split <;> omega

theorem lineX_fault (a b : Coord) : (lineX a b).fault = (((chebDist a b : ℤ)) : ℚ) / 2 := by
  have h : (lineX a b).fault = ((lineX a b).major_fault : ℚ) / 2 := rfl
  rw [h, lineX_major_fault]

theorem LineIterX.emitX_finished {s : LineIterX} (h : s.is_finished = true) :
    ∀ fuel, LineIterX.emit fuel s = [] := by
  intro fuel
  cases fuel with
  | zero => rfl
  | succ f => simp only [LineIterX.emit, LineIterX.nextX_finished h]

theorem LineIterX.emitX_succ (s : LineIterX) (c : Coord) (s' : LineIterX)
    (h : s.next = (some c, s')) (fuel : ℕ) :
    LineIterX.emit (fuel + 1) s = c :: LineIterX.emit fuel s' := by
  simp only [LineIterX.emit, h]

theorem LineIterRef.emitRef_finished {s : LineIterRef} (h : s.is_finished = true) :
    ∀ fuel, LineIterRef.emit fuel s = [] := by
  intro fuel
  cases fuel with
  | zero => rfl
  | succ f => simp only [LineIterRef.emit, LineIterRef.nextRef_finished h]

theorem LineIterRef.emitRef_succ (s : LineIterRef) (c : Coord) (s' : LineIterRef)
    (h : s.next = (some c, s')) (fuel : ℕ) :
    LineIterRef.emit (fuel + 1) s = c :: LineIterRef.emit fuel s' := by
  simp only [LineIterRef.emit, h]

theorem LineIterRef.emit_stable :
    ∀ (fuel extra : ℕ) (s : LineIterRef),
      (LineIterRef.emit fuel s).length < fuel →
      LineIterRef.emit (fuel + extra) s = LineIterRef.emit fuel s := by
  intro fuel
  induction fuel with
  | zero => intro extra s h; omega
  | succ f ih =>
    intro extra s h
    have hre : f + 1 + extra = (f + extra) + 1 := by omega
    rcases hs : s.next with ⟨o, s'⟩
    cases o with
    | none =>
      rw [hre]
      simp only [LineIterRef.emit, hs]
    | some c =>
      have e1 : LineIterRef.emit (f + 1) s = c :: LineIterRef.emit f s' := by
        simp only [LineIterRef.emit, hs]
      have e2 : LineIterRef.emit ((f + extra) + 1) s = c :: LineIterRef.emit (f + extra) s' := by
        simp only [LineIterRef.emit, hs]
      rw [hre, e2, e1]
      rw [e1] at h
      simp only [List.length_cons] at h
      rw [ih extra s' (by omega)]

/-- Claim C2: for every origin `o`, `neighborhood o` yields exactly 8
coordinates, each at Chebyshev distance 1 from `o`, with no duplicates, in
the fixed order N, NE, E, SE, S, SW, W, NW (clockwise from north); the
embedding is a pure function of `o`, so every call with the same origin
produces this same sequence. -/
theorem neighborhood_spec (o : Coord) :
    neighborhood o =
      [o + ⟨0, 1⟩, o + ⟨1, 1⟩, o + ⟨1, 0⟩, o + ⟨1, -1⟩,
       o + ⟨0, -1⟩, o + ⟨-1, -1⟩, o + ⟨-1, 0⟩, o + ⟨-1, 1⟩] ∧
    (neighborhood o).length = 8 ∧
    (∀ c ∈ neighborhood o, chebDist o c = 1) ∧
    (neighborhood o).Nodup := by
  refine ⟨rfl, rfl, ?_, ?_⟩
  · intro c hc
    simp only [neighborhood, mooreOffsets, List.map_cons, List.map_nil, List.mem_cons,
      List.not_mem_nil, or_false] at hc
    rcases hc with rfl | rfl | rfl | rfl | rfl | rfl | rfl | rfl <;>
      · simp only [chebDist, Coord.add_x, Coord.add_y]
        omega
  · simp only [neighborhood, mooreOffsets, List.map_cons, List.map_nil]
    simp only [List.nodup_cons, List.mem_cons, List.not_mem_nil, or_false, List.nodup_nil,
      and_true, Coord.ext_iff, Coord.add_x, Coord.add_y, not_or, not_false_eq_true,
      true_and]
    omega

/-- Claim C7: `ortho_neighborhood` and `diag_neighborhood` each yield
exactly 4 coordinates; as sets their union is the `neighborhood` set and
their intersection is empty. -/
theorem ortho_diag_partition (o : Coord) :
    (ortho_neighborhood o).length = 4 ∧ (diag_neighborhood o).length = 4 ∧
    (ortho_neighborhood o).toFinset ∪ (diag_neighborhood o).toFinset
      = (neighborhood o).toFinset ∧
    Disjoint ((ortho_neighborhood o).toFinset) ((diag_neighborhood o).toFinset) := by
  refine ⟨rfl, rfl, ?_, ?_⟩
  · ext c
    simp only [Finset.mem_union, List.mem_toFinset, ortho_neighborhood, diag_neighborhood,
      neighborhood, orthoOffsets, diagOffsets, mooreOffsets, List.map_cons, List.map_nil,
      List.mem_cons, List.not_mem_nil, or_false]
    tauto
  · rw [Finset.disjoint_left]
    intro c hc hd
    simp only [List.mem_toFinset, ortho_neighborhood, diag_neighborhood, orthoOffsets,
      diagOffsets, List.map_cons, List.map_nil, List.mem_cons, List.not_mem_nil,
      or_false] at hc hd
    rcases hc with rfl | rfl | rfl | rfl <;>
      rcases hd with h | h | h | h <;>
      · rw [Coord.ext_iff] at h
        simp only [Coord.add_x, Coord.add_y] at h
        omega

/-- Claim C9: with both origin components strictly between the `i32`
extremes, none of the offset additions performed by `neighborhood`,
`ortho_neighborhood` or `diag_neighborhood` overflows `i32`. -/
theorem neighborhood_no_overflow (o : Coord)
    (hx1 : i32Min < o.x) (hx2 : o.x < i32Max) (hy1 : i32Min < o.y) (hy2 : o.y < i32Max) :
    ∀ offset ∈ mooreOffsets ++ (orthoOffsets ++ diagOffsets), ¬coordAddOverflows o offset := by
  intro offset hmem
  simp only [mooreOffsets, orthoOffsets, diagOffsets, List.cons_append, List.nil_append,
    List.mem_cons, List.not_mem_nil, or_false] at hmem
  simp only [i32Min, i32Max] at hx1 hx2 hy1 hy2
  rcases hmem with rfl | rfl | rfl | rfl | rfl | rfl | rfl | rfl | rfl | rfl | rfl | rfl |
    rfl | rfl | rfl | rfl <;>
    · simp only [coordAddOverflows, addOverflows, i32Min, i32Max, not_or, not_lt]
      constructor <;> omega

/-- Exact-arithmetic evaluation of `line((0,0),(3,1))`: for every fuel
bound of at least 4 calls, exactly `[(0,0),(1,0),(2,1),(3,1)]` is
emitted. -/
theorem lineX_zero_zero_three_one (fuel : ℕ) (h : 4 ≤ fuel) :
    LineIterX.emit fuel (lineX ⟨0, 0⟩ ⟨3, 1⟩) = [⟨0, 0⟩, ⟨1, 0⟩, ⟨2, 1⟩, ⟨3, 1⟩] := by
  rw [lineX_emit_eq_ref]
  rcases Nat.lt_or_ge fuel 5 with h5 | h5
  · have h4 : fuel = 4 := by omega
    subst h4
    decide
  · obtain ⟨n, rfl⟩ : ∃ n, fuel = 5 + n := ⟨fuel - 5, by omega⟩
    have h5' : LineIterRef.emit 5 (lineRef ⟨0, 0⟩ ⟨3, 1⟩) = [⟨0, 0⟩, ⟨1, 0⟩, ⟨2, 1⟩, ⟨3, 1⟩] := by
      decide
    have hst := LineIterRef.emit_stable 5 n (lineRef ⟨0, 0⟩ ⟨3, 1⟩) (by rw [h5']; decide)
    rw [hst, h5']

/-- Witness for claim C9: at origin `(0,0)` and the north offset, the
addition does not overflow. -/
theorem neighborhood_no_overflow_witness : ¬coordAddOverflows ⟨0, 0⟩ ⟨0, 1⟩ :=
  neighborhood_no_overflow ⟨0, 0⟩ (by decide) (by decide) (by decide) (by decide)
    ⟨0, 1⟩ (by decide)

theorem sign_cases3 (d : ℤ) :
    (d.sign = 1 ∧ 0 < d) ∨ (d.sign = 0 ∧ d = 0) ∨ (d.sign = -1 ∧ d < 0) := by
  rcases lt_trichotomy d 0 with h | h | h
  · right; right; exact ⟨Int.sign_eq_neg_one_of_neg h, h⟩
  · right; left; simp [h]
  · left; exact ⟨Int.sign_eq_one_of_pos h, h⟩

theorem line_axes (a b : Coord) :
    (lineS a b = (⟨(b.x - a.x).sign, 0⟩ : Coord) ∧ lineT a b = (⟨0, (b.y - a.y).sign⟩ : Coord) ∧
      (chebDist a b : ℤ) = (b.x - a.x).natAbs ∧ (minDist a b : ℤ) = (b.y - a.y).natAbs) ∨
    (lineS a b = (⟨0, (b.y - a.y).sign⟩ : Coord) ∧ lineT a b = (⟨(b.x - a.x).sign, 0⟩ : Coord) ∧
      (chebDist a b : ℤ) = (b.y - a.y).natAbs ∧ (minDist a b : ℤ) = (b.x - a.x).natAbs) := by
  unfold lineS lineT
  by_cases h : (b - a).x.natAbs > (b - a).y.natAbs
  · left
    rw [if_pos h, if_pos h]
    refine ⟨rfl, rfl, ?_, ?_⟩ <;>
      · simp only [Coord.sub_x, Coord.sub_y] at h
        simp only [chebDist, minDist]
        omega
  · right
    rw [if_neg h, if_neg h]
    refine ⟨rfl, rfl, ?_, ?_⟩ <;>
      · simp only [Coord.sub_x, Coord.sub_y] at h
        simp only [chebDist, minDist]
        omega

theorem minDist_le_chebDist (a b : Coord) : minDist a b ≤ chebDist a b := by
  simp only [minDist, chebDist]
  omega

theorem chebDist_comm (a b : Coord) : chebDist b a = chebDist a b := by
  simp only [chebDist]
  omega

theorem linePt_zero (a b : Coord) : linePt a b 0 0 = a := by
  simp [linePt, Coord.ext_iff]

theorem linePt_reach (a b : Coord) :
    linePt a b (chebDist a b : ℤ) (minDist a b : ℤ) = b := by
  rcases line_axes a b with ⟨hS, hT, hM, hN⟩ | ⟨hS, hT, hM, hN⟩ <;>
    rcases sign_cases3 (b.x - a.x) with ⟨hsx, hdx⟩ | ⟨hsx, hdx⟩ | ⟨hsx, hdx⟩ <;>
    rcases sign_cases3 (b.y - a.y) with ⟨hsy, hdy⟩ | ⟨hsy, hdy⟩ | ⟨hsy, hdy⟩ <;>
    · simp only [linePt, hS, hT, hsx, hsy, Coord.ext_iff, Coord.add_x, Coord.add_y,
        Coord.smul_x, Coord.smul_y] at *
      omega

theorem linePt_ne_end (a b : Coord) (k j : ℤ) (hk0 : 0 ≤ k)
    (hk : k < (chebDist a b : ℤ)) (_hj0 : 0 ≤ j) (_hj : j ≤ (minDist a b : ℤ)) :
    linePt a b k j ≠ b := by
  rcases line_axes a b with ⟨hS, hT, hM, hN⟩ | ⟨hS, hT, hM, hN⟩ <;>
    rcases sign_cases3 (b.x - a.x) with ⟨hsx, hdx⟩ | ⟨hsx, hdx⟩ | ⟨hsx, hdx⟩ <;>
    rcases sign_cases3 (b.y - a.y) with ⟨hsy, hdy⟩ | ⟨hsy, hdy⟩ | ⟨hsy, hdy⟩ <;>
    · simp only [linePt, hS, hT, hsx, hsy, ne_eq, Coord.ext_iff, Coord.add_x, Coord.add_y,
        Coord.smul_x, Coord.smul_y, not_and] at *
      omega

theorem linePt_inBBox (a b : Coord) (k j : ℤ) (hk0 : 0 ≤ k)
    (hk : k ≤ (chebDist a b : ℤ)) (hj0 : 0 ≤ j) (hj : j ≤ (minDist a b : ℤ)) :
    inBBox a b (linePt a b k j) := by
  rcases line_axes a b with ⟨hS, hT, hM, hN⟩ | ⟨hS, hT, hM, hN⟩ <;>
    rcases sign_cases3 (b.x - a.x) with ⟨hsx, hdx⟩ | ⟨hsx, hdx⟩ | ⟨hsx, hdx⟩ <;>
    rcases sign_cases3 (b.y - a.y) with ⟨hsy, hdy⟩ | ⟨hsy, hdy⟩ | ⟨hsy, hdy⟩ <;>
    · simp only [linePt, inBBox, hS, hT, hsx, hsy, Coord.add_x, Coord.add_y,
        Coord.smul_x, Coord.smul_y] at *
      omega

theorem lineStepGood_pt (a b : Coord) (k j j' : ℤ)
    (hM0 : 0 < (chebDist a b : ℤ)) (hj : j' = j ∨ j' = j + 1) :
    lineStepGood a b (linePt a b k j) (linePt a b (k + 1) j') := by
  rcases line_axes a b with ⟨hS, hT, hM, hN⟩ | ⟨hS, hT, hM, hN⟩ <;>
    rcases sign_cases3 (b.x - a.x) with ⟨hsx, hdx⟩ | ⟨hsx, hdx⟩ | ⟨hsx, hdx⟩ <;>
    rcases sign_cases3 (b.y - a.y) with ⟨hsy, hdy⟩ | ⟨hsy, hdy⟩ | ⟨hsy, hdy⟩ <;>
    rcases hj with rfl | rfl <;>
    · simp only [lineStepGood, unitStepClose, monoStep, linePt, hS, hT, hsx, hsy,
        Coord.ext_iff, Coord.add_x, Coord.add_y, Coord.smul_x, Coord.smul_y,
        ne_eq, not_and] at *
      omega

theorem linePt_step_major (a b : Coord) (k j : ℤ) :
    linePt a b k j + lineS a b = linePt a b (k + 1) j := by
  simp only [linePt, Coord.ext_iff, Coord.add_x, Coord.add_y, Coord.smul_x, Coord.smul_y]
  constructor <;> ring

theorem linePt_step_both (a b : Coord) (k j : ℤ) :
    linePt a b k j + lineS a b + lineT a b = linePt a b (k + 1) (j + 1) := by
  simp only [linePt, Coord.ext_iff, Coord.add_x, Coord.add_y, Coord.smul_x, Coord.smul_y]
  constructor <;> ring

theorem half_lt_zero_iff (F n : ℤ) : ((F : ℚ) / 2 - (n : ℚ) < 0) ↔ F - 2 * n < 0 := by
  constructor
  · intro h
    by_contra hge
    push_neg at hge
    have : (0 : ℚ) ≤ (F : ℚ) - 2 * n := by exact_mod_cast hge
    linarith
  · intro h
    have : (F : ℚ) - 2 * n < 0 := by exact_mod_cast h
    linarith

theorem lineInv_M_pos {a b : Coord} {k j : ℤ} {s : LineIterX} (inv : LineInv a b k j s) :
    0 < (chebDist a b : ℤ) := by
  have h1 := inv.lb
  have h2 := inv.ub
  linarith

theorem lineInv_j_le {a b : Coord} {k j : ℤ} {s : LineIterX}
    (inv : LineInv a b k j s) (hk : k ≤ (chebDist a b : ℤ)) :
    j ≤ (minDist a b : ℤ) := by
  set M := (chebDist a b : ℤ) with hMdef
  set N := (minDist a b : ℤ) with hNdef
  have hM0 : 0 < M := lineInv_M_pos inv
  have hN0 : (0 : ℤ) ≤ N := by simp [hNdef]
  have hkN : k * N ≤ M * N := mul_le_mul_of_nonneg_right hk hN0
  have hub := inv.ub
  by_contra hgt
  push_neg at hgt
  have hj1 : N + 1 ≤ j := hgt
  have : 2 * j * M ≥ 2 * (N + 1) * M :=
    mul_le_mul_of_nonneg_right (by linarith) (le_of_lt hM0)
  nlinarith

theorem lineInv_at_end {a b : Coord} {j : ℤ} {s : LineIterX}
    (inv : LineInv a b (chebDist a b : ℤ) j s) : j = (minDist a b : ℤ) := by
  set M := (chebDist a b : ℤ) with hMdef
  set N := (minDist a b : ℤ) with hNdef
  have hM0 : 0 < M := lineInv_M_pos inv
  have hlb := inv.lb
  have hub := inv.ub
  have hle : j ≤ N := lineInv_j_le inv le_rfl
  by_contra hne
  have hlt : j ≤ N - 1 := by omega
  have : 2 * j * M ≤ 2 * (N - 1) * M :=
    mul_le_mul_of_nonneg_right (by linarith) (le_of_lt hM0)
  nlinarith

theorem chebDist_eq_zero_iff (a b : Coord) : chebDist a b = 0 ↔ a = b := by
  simp only [chebDist, Coord.ext_iff]
  omega

theorem lineInv_init (a b : Coord) (hab : a ≠ b) : LineInv a b 0 0 (lineX a b) := by
  have hM0 : 0 < (chebDist a b : ℤ) := by
    have hne : chebDist a b ≠ 0 := fun h => hab ((chebDist_eq_zero_iff a b).mp h)
    omega
  refine ⟨rfl, rfl, lineX_major_step a b, lineX_minor_step a b, lineX_major_fault a b,
    lineX_minor_fault a b, (linePt_zero a b).symm, ?_, by omega, by omega, le_refl 0, le_refl 0⟩
  rw [lineX_fault]
  push_cast
  ring

theorem lineInv_step {a b : Coord} {k j : ℤ} {s : LineIterX}
    (inv : LineInv a b k j s) (hk : k < (chebDist a b : ℤ)) :
    s.next.1 = some (linePt a b k j) ∧
    ∃ j' : ℤ, (j' = j ∨ j' = j + 1) ∧ LineInv a b (k + 1) j' s.next.2 := by
  have hN0 : (0 : ℤ) ≤ (minDist a b : ℤ) := Int.natCast_nonneg _
  have hNM : (minDist a b : ℤ) ≤ (chebDist a b : ℤ) := by
    exact_mod_cast minDist_le_chebDist a b
  have hlb := inv.lb
  have hub := inv.ub
  have hne : s.next_coord ≠ s.end_coord := by
    rw [inv.nc, inv.ec]
    exact linePt_ne_end a b k j inv.k0 hk inv.j0 (lineInv_j_le inv (le_of_lt hk))
  rw [LineIterX.nextX_step inv.fin hne]
  refine ⟨by rw [inv.nc], ?_⟩
  have htest : (s.fault - (s.minor_fault : ℚ) < 0) ↔
      ((chebDist a b : ℤ) - 2 * k * (minDist a b : ℤ) + 2 * j * (chebDist a b : ℤ))
        - 2 * (minDist a b : ℤ) < 0 := by
    rw [inv.flt, inv.nf]
    exact half_lt_zero_iff _ _
  by_cases hreset :
      ((chebDist a b : ℤ) - 2 * k * (minDist a b : ℤ) + 2 * j * (chebDist a b : ℤ))
        - 2 * (minDist a b : ℤ) < 0
  · rw [if_pos (htest.mpr hreset)]
    refine ⟨j + 1, Or.inr rfl, inv.fin, inv.ec, inv.ms, inv.ts, inv.mf, inv.nf, ?_, ?_, ?_, ?_,
      by linarith [inv.k0], by linarith [inv.j0]⟩
    · show s.next_coord + s.major_step + s.minor_step = linePt a b (k + 1) (j + 1)
      rw [inv.nc, inv.ms, inv.ts, linePt_step_both]
    · show s.fault - (s.minor_fault : ℚ) + (s.major_fault : ℚ) =
        (((chebDist a b : ℤ) - 2 * (k + 1) * (minDist a b : ℤ)
          + 2 * (j + 1) * (chebDist a b : ℤ) : ℤ) : ℚ) / 2
      rw [inv.flt, inv.nf, inv.mf]
      push_cast
      ring
    · show 0 ≤ (chebDist a b : ℤ) - 2 * (k + 1) * (minDist a b : ℤ)
        + 2 * (j + 1) * (chebDist a b : ℤ)
      nlinarith
    · show (chebDist a b : ℤ) - 2 * (k + 1) * (minDist a b : ℤ)
        + 2 * (j + 1) * (chebDist a b : ℤ) < 2 * (chebDist a b : ℤ)
      nlinarith
  · rw [if_neg (fun hc => hreset (htest.mp hc))]
    push_neg at hreset
    refine ⟨j, Or.inl rfl, inv.fin, inv.ec, inv.ms, inv.ts, inv.mf, inv.nf, ?_, ?_, ?_, ?_,
      by linarith [inv.k0], inv.j0⟩
    · show s.next_coord + s.major_step = linePt a b (k + 1) j
      rw [inv.nc, inv.ms, linePt_step_major]
    · show s.fault - (s.minor_fault : ℚ) =
        (((chebDist a b : ℤ) - 2 * (k + 1) * (minDist a b : ℤ)
          + 2 * j * (chebDist a b : ℤ) : ℤ) : ℚ) / 2
      rw [inv.flt, inv.nf]
      push_cast
      ring
    · show 0 ≤ (chebDist a b : ℤ) - 2 * (k + 1) * (minDist a b : ℤ)
        + 2 * j * (chebDist a b : ℤ)
      nlinarith
    · show (chebDist a b : ℤ) - 2 * (k + 1) * (minDist a b : ℤ)
        + 2 * j * (chebDist a b : ℤ) < 2 * (chebDist a b : ℤ)
      nlinarith

theorem lineInv_emit {a b : Coord} :
    ∀ (d : ℕ) (k j : ℤ) (s : LineIterX) (fuel : ℕ),
      LineInv a b k j s → k + (d : ℤ) = (chebDist a b : ℤ) → d < fuel →
      (LineIterX.emit fuel s).length = d + 1 ∧
      (LineIterX.emit fuel s).head? = some (linePt a b k j) ∧
      (LineIterX.emit fuel s).getLast? = some b ∧
      List.Chain' (lineStepGood a b) (LineIterX.emit fuel s) ∧
      ∀ c ∈ LineIterX.emit fuel s, inBBox a b c := by
  intro d
  induction d with
  | zero =>
    intro k j s fuel inv hkd hfuel
    have hkM : k = (chebDist a b : ℤ) := by omega
    subst hkM
    have hjN : j = (minDist a b : ℤ) := lineInv_at_end inv
    subst hjN
    obtain ⟨f, rfl⟩ : ∃ f, fuel = f + 1 := ⟨fuel - 1, by omega⟩
    have hend : s.next_coord = s.end_coord := by
      rw [inv.nc, inv.ec, linePt_reach]
    have hnext : s.next = (some s.end_coord, { s with is_finished := true }) :=
      LineIterX.nextX_emit_end inv.fin hend
    have hemit : LineIterX.emit (f + 1) s = [s.end_coord] := by
      rw [LineIterX.emitX_succ s s.end_coord _ hnext f, LineIterX.emitX_finished rfl]
    rw [hemit, inv.ec]
    refine ⟨rfl, by rw [linePt_reach]; rfl, rfl, List.chain'_singleton b, ?_⟩
    intro c hc
    simp only [List.mem_singleton] at hc
    subst hc
    exact ⟨by omega, by omega, by omega, by omega⟩
  | succ d ih =>
    intro k j s fuel inv hkd hfuel
    have hk : k < (chebDist a b : ℤ) := by
      push_cast at hkd
      have := inv.k0
      omega
    obtain ⟨hout, j', hj', inv'⟩ := lineInv_step inv hk
    obtain ⟨f, rfl⟩ : ∃ f, fuel = f + 1 := ⟨fuel - 1, by omega⟩
    rcases hs : s.next with ⟨o, s2⟩
    rw [hs] at hout inv'
    dsimp only at hout inv'
    subst hout
    have hemit : LineIterX.emit (f + 1) s = linePt a b k j :: LineIterX.emit f s2 :=
      LineIterX.emitX_succ s _ s2 hs f
    have hih := ih (k + 1) j' s2 f inv' (by push_cast at hkd ⊢; linarith) (by omega)
    obtain ⟨hlen, hhead, hlast, hchain, hbox⟩ := hih
    obtain ⟨tl, htl⟩ : ∃ tl, LineIterX.emit f s2 = linePt a b (k + 1) j' :: tl := by
      cases hE : LineIterX.emit f s2 with
      | nil => rw [hE] at hhead; simp at hhead
      | cons hd tl =>
        rw [hE] at hhead
        simp only [List.head?_cons, Option.some.injEq] at hhead
        exact ⟨tl, by rw [hhead]⟩
    rw [hemit]
    refine ⟨by simp [hlen], rfl, ?_, ?_, ?_⟩
    · rw [htl, List.getLast?_cons_cons, ← htl, hlast]
    · rw [htl, List.chain'_cons]
      refine ⟨lineStepGood_pt a b k j j' (lineInv_M_pos inv) hj', ?_⟩
      rw [← htl]
      exact hchain
    · intro c hc
      rcases List.mem_cons.mp hc with rfl | hc2
      · exact linePt_inBBox a b k j inv.k0 (le_of_lt hk) inv.j0
          (lineInv_j_le inv (le_of_lt hk))
      · exact hbox c hc2

theorem lineX_emit_self (a : Coord) (fuel : ℕ) : LineIterX.emit (fuel + 1) (lineX a a) = [a] := by
  have hnext : (lineX a a).next = (some a, { lineX a a with is_finished := true }) :=
    @LineIterX.nextX_emit_end (lineX a a) rfl rfl
  rw [LineIterX.emitX_succ _ a _ hnext fuel, LineIterX.emitX_finished rfl]

/-- Exact-arithmetic iterator: for any fuel bound of at least `chebDist+1`
calls, `lineX a b` emits a sequence of length `max(|dx|,|dy|)+1` whose first
element is `a` and last is `b`, with consecutive elements distinct and
differing by at most one in each component; for `a = b` the sequence is
exactly `[a]`. -/
theorem lineX_length_endpoints_steps (a b : Coord) (fuel : ℕ)
    (hf : chebDist a b + 1 ≤ fuel) :
    (LineIterX.emit fuel (lineX a b)).length = chebDist a b + 1 ∧
    (LineIterX.emit fuel (lineX a b)).head? = some a ∧
    (LineIterX.emit fuel (lineX a b)).getLast? = some b ∧
    List.Chain' unitStepClose (LineIterX.emit fuel (lineX a b)) ∧
    (a = b → LineIterX.emit fuel (lineX a b) = [a]) := by
  by_cases hab : a = b
  · subst hab
    obtain ⟨f, rfl⟩ : ∃ f, fuel = f + 1 := ⟨fuel - 1, by omega⟩
    rw [lineX_emit_self]
    have h0 : chebDist a a = 0 := by
      simp only [chebDist]
      omega
    rw [h0]
    exact ⟨rfl, rfl, rfl, List.chain'_singleton a, fun _ => rfl⟩
  · have h := lineInv_emit (chebDist a b) 0 0 (lineX a b) fuel (lineInv_init a b hab)
      (by ring) (by omega)
    obtain ⟨hlen, hhead, hlast, hchain, _⟩ := h
    refine ⟨hlen, ?_, hlast, hchain.imp (fun c d h => h.1), fun h' => absurd h' hab⟩
    rw [hhead, linePt_zero]

/-- Instance of the exact-arithmetic emission lemma at (0,0), (3,1), fuel 4. -/
theorem lineX_length_endpoints_steps_inst :
    (LineIterX.emit 4 (lineX ⟨0, 0⟩ ⟨3, 1⟩)).length = chebDist ⟨0, 0⟩ ⟨3, 1⟩ + 1 ∧
    (LineIterX.emit 4 (lineX ⟨0, 0⟩ ⟨3, 1⟩)).head? = some ⟨0, 0⟩ ∧
    (LineIterX.emit 4 (lineX ⟨0, 0⟩ ⟨3, 1⟩)).getLast? = some ⟨3, 1⟩ ∧
    List.Chain' unitStepClose (LineIterX.emit 4 (lineX ⟨0, 0⟩ ⟨3, 1⟩)) ∧
    ((⟨0, 0⟩ : Coord) = ⟨3, 1⟩ → LineIterX.emit 4 (lineX ⟨0, 0⟩ ⟨3, 1⟩) = [⟨0, 0⟩]) :=
  lineX_length_endpoints_steps ⟨0, 0⟩ ⟨3, 1⟩ 4 (by decide)

/-- Exact-arithmetic iterator: every emitted coordinate lies in the
axis-aligned bounding rectangle of the endpoints, and both components move
monotonically in the direction of the corresponding delta along the
sequence. -/
theorem lineX_bbox_monotone (a b : Coord) (fuel : ℕ)
    (hf : chebDist a b + 1 ≤ fuel) :
    (∀ c ∈ LineIterX.emit fuel (lineX a b), inBBox a b c) ∧
    List.Chain' (monoStep a b) (LineIterX.emit fuel (lineX a b)) := by
  by_cases hab : a = b
  · subst hab
    obtain ⟨f, rfl⟩ : ∃ f, fuel = f + 1 := ⟨fuel - 1, by omega⟩
    rw [lineX_emit_self]
    refine ⟨?_, List.chain'_singleton a⟩
    intro c hc
    simp only [List.mem_singleton] at hc
    subst hc
    exact ⟨by omega, by omega, by omega, by omega⟩
  · have h := lineInv_emit (chebDist a b) 0 0 (lineX a b) fuel (lineInv_init a b hab)
      (by ring) (by omega)
    exact ⟨h.2.2.2.2, h.2.2.2.1.imp (fun c d h => h.2)⟩

theorem LineIterX.advanceX_finished {s : LineIterX} (h : s.is_finished = true) :
    s.advance = s := by
  unfold LineIterX.advance
  rw [LineIterX.nextX_finished h]

theorem lineRunX_succ (a b : Coord) (k : ℕ) :
    lineRunX a b (k + 1) = (lineRunX a b k).advance := by
  unfold lineRunX
  rw [Function.iterate_succ_apply']

theorem lineRunX_finished (a b : Coord) (n : ℕ) (hn : (lineRunX a b n).is_finished = true) :
    ∀ k : ℕ, n ≤ k → lineRunX a b k = lineRunX a b n := by
  intro k
  induction k with
  | zero =>
    intro h
    have h0 : n = 0 := by omega
    subst h0
    rfl
  | succ k ih =>
    intro h
    rcases Nat.lt_or_ge k n with h1 | h1
    · have h2 : n = k + 1 := by omega
      subst h2
      rfl
    · rw [lineRunX_succ, ih h1, LineIterX.advanceX_finished hn]

theorem lineRunX_inv (a b : Coord) (hab : a ≠ b) :
    ∀ k : ℕ, (k : ℤ) ≤ (chebDist a b : ℤ) → ∃ j : ℤ, LineInv a b (k : ℤ) j (lineRunX a b k) := by
  intro k
  induction k with
  | zero =>
    intro _
    exact ⟨0, by exact_mod_cast lineInv_init a b hab⟩
  | succ k ih =>
    intro hk
    obtain ⟨j, inv⟩ := ih (by push_cast at hk ⊢; omega)
    have hklt : (k : ℤ) < (chebDist a b : ℤ) := by push_cast at hk; omega
    obtain ⟨_, j', _, inv'⟩ := lineInv_step inv hklt
    refine ⟨j', ?_⟩
    have hc : ((k + 1 : ℕ) : ℤ) = (k : ℤ) + 1 := by push_cast; ring
    rw [hc, lineRunX_succ]
    exact inv'

/-- Exact-arithmetic iterator termination: each of the first `chebDist+1`
calls to `next` returns `some`, the call at index `chebDist` returns the
`to` coordinate and marks the iterator exhausted, and every later call
returns `none`. -/
theorem lineRunX_terminates (a b : Coord) :
    (∀ k : ℕ, k ≤ chebDist a b → ((lineRunX a b k).next.1).isSome = true) ∧
    (lineRunX a b (chebDist a b)).next.1 = some b ∧
    (lineRunX a b (chebDist a b + 1)).is_finished = true ∧
    (∀ k : ℕ, chebDist a b < k → (lineRunX a b k).next.1 = none) := by
  by_cases hab : a = b
  · subst hab
    have h0 : chebDist a a = 0 := by
      simp only [chebDist]
      omega
    have hnext0 : (lineX a a).next = (some a, { lineX a a with is_finished := true }) :=
      @LineIterX.nextX_emit_end (lineX a a) rfl rfl
    have hfin1 : (lineRunX a a 1).is_finished = true := by
      rw [show (1 : ℕ) = 0 + 1 from rfl, lineRunX_succ]
      unfold LineIterX.advance
      rw [show lineRunX a a 0 = lineX a a from rfl, hnext0]
    refine ⟨?_, ?_, ?_, ?_⟩
    · intro k hk
      rw [h0] at hk
      have hk0 : k = 0 := by omega
      subst hk0
      rw [show lineRunX a a 0 = lineX a a from rfl, hnext0]
      rfl
    · rw [h0, show lineRunX a a 0 = lineX a a from rfl, hnext0]
    · rw [h0]
      exact hfin1
    · intro k hk
      rw [h0] at hk
      rw [lineRunX_finished a a 1 hfin1 k (by omega), LineIterX.nextX_finished hfin1]
  · obtain ⟨j, invM⟩ := lineRunX_inv a b hab (chebDist a b) le_rfl
    have hjN : j = (minDist a b : ℤ) := lineInv_at_end invM
    subst hjN
    have hendM : (lineRunX a b (chebDist a b)).next_coord
        = (lineRunX a b (chebDist a b)).end_coord := by
      rw [invM.nc, invM.ec, linePt_reach]
    have hnextM : (lineRunX a b (chebDist a b)).next =
        (some ((lineRunX a b (chebDist a b)).end_coord),
          { lineRunX a b (chebDist a b) with is_finished := true }) :=
      LineIterX.nextX_emit_end invM.fin hendM
    have hfinM1 : (lineRunX a b (chebDist a b + 1)).is_finished = true := by
      rw [lineRunX_succ]
      unfold LineIterX.advance
      rw [hnextM]
    refine ⟨?_, ?_, hfinM1, ?_⟩
    · intro k hk
      rcases Nat.lt_or_ge k (chebDist a b) with hlt | hge
      · obtain ⟨j', invk⟩ := lineRunX_inv a b hab k (by exact_mod_cast le_of_lt hlt)
        have hklt : (k : ℤ) < (chebDist a b : ℤ) := by exact_mod_cast hlt
        rw [(lineInv_step invk hklt).1]
        rfl
      · have hkM : k = chebDist a b := by omega
        subst hkM
        rw [hnextM]
        rfl
    · rw [hnextM, invM.ec]
    · intro k hk
      rw [lineRunX_finished a b (chebDist a b + 1) hfinM1 k (by omega),
        LineIterX.nextX_finished hfinM1]

theorem minDist_comm (a b : Coord) : minDist b a = minDist a b := by
  simp only [minDist]
  omega

theorem lineT_zero (a b : Coord) (h : minDist a b = 0) : lineT a b = (⟨0, 0⟩ : Coord) := by
  rcases line_axes a b with ⟨hS, hT, hM, hN⟩ | ⟨hS, hT, hM, hN⟩
  · rw [hT]
    have hd : b.y - a.y = 0 := by omega
    rw [hd]
    rfl
  · rw [hT]
    have hd : b.x - a.x = 0 := by omega
    rw [hd]
    rfl

theorem lineST_sum (a b : Coord) :
    lineS a b + lineT a b = (⟨(b.x - a.x).sign, (b.y - a.y).sign⟩ : Coord) := by
  rcases line_axes a b with ⟨hS, hT, _, _⟩ | ⟨hS, hT, _, _⟩ <;>
    · rw [hS, hT]
      simp [Coord.ext_iff]

theorem lineInv_forced {a b : Coord} {k j : ℤ} {s : LineIterX}
    (inv : LineInv a b k j s) (hk : k ≤ (chebDist a b : ℤ))
    (hsp : minDist a b = 0 ∨ minDist a b = chebDist a b) :
    linePt a b k j = a + Coord.smul k (lineS a b + lineT a b) := by
  have hM0 : 0 < (chebDist a b : ℤ) := lineInv_M_pos inv
  have hlb := inv.lb
  have hub := inv.ub
  have hj0 := inv.j0
  rcases hsp with h0 | hMN
  · have hN : (minDist a b : ℤ) = 0 := by exact_mod_cast h0
    rw [hN] at hlb hub
    have hj1 : j ≤ 0 := by nlinarith
    have hj : j = 0 := by omega
    subst hj
    simp only [linePt, lineT_zero a b h0, Coord.ext_iff, Coord.add_x, Coord.add_y,
      Coord.smul_x, Coord.smul_y]
    constructor <;> ring
  · have hN : (minDist a b : ℤ) = (chebDist a b : ℤ) := by exact_mod_cast hMN
    rw [hN] at hlb hub
    have h1 : j ≤ k := by nlinarith
    have h2 : k ≤ j := by nlinarith
    have hj : j = k := by omega
    subst hj
    simp only [linePt, Coord.ext_iff, Coord.add_x, Coord.add_y, Coord.smul_x, Coord.smul_y]
    constructor <;> ring

theorem lineInv_emit_closed {a b : Coord}
    (hsp : minDist a b = 0 ∨ minDist a b = chebDist a b) :
    ∀ (d : ℕ) (k j : ℤ) (s : LineIterX) (fuel : ℕ),
      LineInv a b k j s → k + (d : ℤ) = (chebDist a b : ℤ) → d < fuel →
      LineIterX.emit fuel s =
        (List.range (d + 1)).map
          (fun (i : ℕ) => a + Coord.smul (k + (i : ℤ)) (lineS a b + lineT a b)) := by
  intro d
  induction d with
  | zero =>
    intro k j s fuel inv hkd hfuel
    have hkM : k = (chebDist a b : ℤ) := by omega
    subst hkM
    have hjN : j = (minDist a b : ℤ) := lineInv_at_end inv
    subst hjN
    obtain ⟨f, rfl⟩ : ∃ f, fuel = f + 1 := ⟨fuel - 1, by omega⟩
    have hend : s.next_coord = s.end_coord := by
      rw [inv.nc, inv.ec, linePt_reach]
    have hnext : s.next = (some s.end_coord, { s with is_finished := true }) :=
      LineIterX.nextX_emit_end inv.fin hend
    rw [LineIterX.emitX_succ s s.end_coord _ hnext f, LineIterX.emitX_finished rfl, inv.ec]
    have hforced := lineInv_forced inv le_rfl hsp
    have hr1 : List.range (0 + 1) = [0] := by decide
    rw [hr1, List.map_cons, List.map_nil]
    congr 1
    norm_num
    rw [← hforced, linePt_reach]
  | succ d ih =>
    intro k j s fuel inv hkd hfuel
    have hk : k < (chebDist a b : ℤ) := by
      push_cast at hkd
      have := inv.k0
      omega
    obtain ⟨hout, j', hj', inv'⟩ := lineInv_step inv hk
    obtain ⟨f, rfl⟩ : ∃ f, fuel = f + 1 := ⟨fuel - 1, by omega⟩
    rcases hs : s.next with ⟨o, s2⟩
    rw [hs] at hout inv'
    dsimp only at hout inv'
    subst hout
    rw [LineIterX.emitX_succ s _ s2 hs f]
    rw [ih (k + 1) j' s2 f inv' (by push_cast at hkd ⊢; linarith) (by omega)]
    have hforced := lineInv_forced inv (le_of_lt hk) hsp
    rw [hforced]
    conv_rhs => rw [List.range_succ_eq_map, List.map_cons, List.map_map]
    congr 1
    · norm_num
    · apply List.map_congr_left
      intro i _
      simp only [Function.comp_apply]
      congr 2
      push_cast
      ring

theorem lineX_emit_closed (a b : Coord) (hab : a ≠ b)
    (hsp : minDist a b = 0 ∨ minDist a b = chebDist a b)
    (fuel : ℕ) (hf : chebDist a b + 1 ≤ fuel) :
    LineIterX.emit fuel (lineX a b) =
      (List.range (chebDist a b + 1)).map
        (fun (i : ℕ) => a + Coord.smul (i : ℤ) (lineS a b + lineT a b)) := by
  have h := lineInv_emit_closed hsp (chebDist a b) 0 0 (lineX a b) fuel
    (lineInv_init a b hab) (by ring) (by omega)
  rw [h]
  apply List.map_congr_left
  intro i _
  norm_num

theorem lineX_endpoint_closed (a b : Coord) (hab : a ≠ b)
    (hsp : minDist a b = 0 ∨ minDist a b = chebDist a b) :
    b = a + Coord.smul (chebDist a b : ℤ) (lineS a b + lineT a b) := by
  obtain ⟨j, invM⟩ := lineRunX_inv a b hab (chebDist a b) le_rfl
  have hjN : j = (minDist a b : ℤ) := lineInv_at_end invM
  subst hjN
  rw [← lineInv_forced invM le_rfl hsp, linePt_reach]

theorem reverse_map_range (n : ℕ) (f : ℕ → Coord) :
    ((List.range (n + 1)).map f).reverse = (List.range (n + 1)).map (fun i => f (n - i)) := by
  apply List.ext_getElem
  · simp
  · intro i h1 h2
    simp only [List.getElem_reverse, List.getElem_map, List.getElem_range, List.length_map,
      List.length_range] at *
    have he : n + 1 - 1 - i = n - i := by omega
    rw [he]

/-- Exact-arithmetic iterator: for axis-aligned or exactly diagonal (45°)
endpoints, `lineX b a` yields exactly the reverse of the sequence of
`lineX a b`. -/
theorem lineX_reverse_special (a b : Coord)
    (h : a.x = b.x ∨ a.y = b.y ∨ (b.x - a.x).natAbs = (b.y - a.y).natAbs)
    (fuel : ℕ) (hf : chebDist a b + 1 ≤ fuel) :
    LineIterX.emit fuel (lineX b a) = (LineIterX.emit fuel (lineX a b)).reverse := by
  by_cases hab : a = b
  · subst hab
    obtain ⟨f, rfl⟩ : ∃ f, fuel = f + 1 := ⟨fuel - 1, by omega⟩
    rw [lineX_emit_self]
    rfl
  · have hsp : minDist a b = 0 ∨ minDist a b = chebDist a b := by
      simp only [minDist, chebDist]
      rcases h with h | h | h <;> omega
    have hsp2 : minDist b a = 0 ∨ minDist b a = chebDist b a := by
      rw [minDist_comm, chebDist_comm]
      exact hsp
    have hab2 : b ≠ a := fun hh => hab hh.symm
    have hf2 : chebDist b a + 1 ≤ fuel := by
      rw [chebDist_comm]
      exact hf
    rw [lineX_emit_closed b a hab2 hsp2 fuel hf2, lineX_emit_closed a b hab hsp fuel hf,
      chebDist_comm, reverse_map_range]
    apply List.map_congr_left
    intro i hi
    simp only [List.mem_range] at hi
    have hU := lineST_sum a b
    have hU2 := lineST_sum b a
    have hb := lineX_endpoint_closed a b hab hsp
    rw [hU, hU2]
    have hsx : (a.x - b.x).sign = -(b.x - a.x).sign := by
      rw [show a.x - b.x = -(b.x - a.x) from by ring, Int.sign_neg]
    have hsy : (a.y - b.y).sign = -(b.y - a.y).sign := by
      rw [show a.y - b.y = -(b.y - a.y) from by ring, Int.sign_neg]
    rw [hsx, hsy]
    have hb' : b.x = a.x + (chebDist a b : ℤ) * (b.x - a.x).sign ∧
        b.y = a.y + (chebDist a b : ℤ) * (b.y - a.y).sign := by
      have hb2 := hb
      rw [hU, Coord.ext_iff] at hb2
      simpa using hb2
    have hc : ((chebDist a b - i : ℕ) : ℤ) = (chebDist a b : ℤ) - (i : ℤ) := by omega
    obtain ⟨hbx, hby⟩ := hb'
    rw [Coord.ext_iff]
    constructor
    · simp only [Coord.add_x, Coord.smul_x]
      rw [hc]
      generalize hgx : (b.x - a.x).sign = sx at hbx ⊢
      rw [hbx]
      ring
    · simp only [Coord.add_y, Coord.smul_y]
      rw [hc]
      generalize hgy : (b.y - a.y).sign = sy at hby ⊢
      rw [hby]
      ring

theorem rne_intCast (n : ℤ) : rne (n : ℚ) = n := by
  unfold rne
  norm_num

theorem rne_ge_floor (q : ℚ) : ⌊q⌋ ≤ rne q := by
  unfold rne
  split
  · exact le_rfl
  · split
    · omega
    · split <;> omega

theorem rne_le_floor_add_one (q : ℚ) : rne q ≤ ⌊q⌋ + 1 := by
  unfold rne
  split
  · omega
  · split
    · omega
    · split <;> omega

theorem int_log2_eq {q : ℚ} {e : ℤ} (hq : 0 < q) (h1 : (2 : ℚ) ^ e ≤ q)
    (h2 : q < 2 ^ (e + 1)) : Int.log 2 q = e := by
  have hle : e ≤ Int.log 2 q := by
    rw [← Int.zpow_le_iff_le_log one_lt_two hq]
    exact_mod_cast h1
  have hlt : Int.log 2 q < e + 1 := by
    rw [← Int.lt_zpow_iff_log_lt one_lt_two hq]
    exact_mod_cast h2
  omega

theorem f32round_grid_exact (q : ℚ) (e m : ℤ) (h0 : q ≠ 0)
    (h1 : (2 : ℚ) ^ e ≤ |q|) (h2 : |q| < 2 ^ (e + 1))
    (hm : q = (m : ℚ) * 2 ^ (e - 23)) (he : -126 ≤ e) :
    f32round q = q := by
  have habs : (0 : ℚ) < |q| := abs_pos.mpr h0
  have hlog : Int.log 2 |q| = e := int_log2_eq habs h1 h2
  have hgn : ((2 : ℚ) ^ (e - 23)) ≠ 0 := zpow_ne_zero _ (by norm_num)
  have hmax : max (e - 23) (-149 : ℤ) = e - 23 := by omega
  simp only [f32round, if_neg h0, hlog, hmax]
  have hq : q / 2 ^ (e - 23) = (m : ℚ) := by
    rw [hm, mul_div_assoc, div_self hgn, mul_one]
  rw [hq, rne_intCast, ← hm]

theorem f32round_zero : f32round 0 = 0 := by
  simp [f32round]

theorem f32_binade (q : ℚ) (h0 : q ≠ 0) :
    (2 : ℚ) ^ (Int.log 2 |q|) ≤ |q| ∧ |q| < (2 : ℚ) ^ (Int.log 2 |q| + 1) := by
  have habs : (0 : ℚ) < |q| := abs_pos.mpr h0
  constructor
  · exact_mod_cast Int.zpow_log_le_self one_lt_two habs
  · exact_mod_cast Int.lt_zpow_succ_log_self one_lt_two |q|

theorem f32round_half (q : ℚ) (n : ℤ) (hq : q = (n : ℚ) / 2)
    (hb : |q| < (2 : ℚ) ^ (23 : ℤ)) : f32round q = q := by
  by_cases h0 : q = 0
  · rw [h0, f32round_zero]
  · have hn0 : n ≠ 0 := by
      rintro rfl
      rw [hq] at h0
      norm_num at h0
    have hnc : (1 : ℚ) ≤ |(n : ℚ)| := by
      have h := Int.one_le_abs hn0
      exact_mod_cast h
    have hqlo : (2 : ℚ) ^ (-1 : ℤ) ≤ |q| := by
      rw [hq, abs_div, abs_two]
      have h1 : (1 : ℚ) / 2 ≤ |(n : ℚ)| / 2 := by linarith
      have h2 : (2 : ℚ) ^ (-1 : ℤ) = 1 / 2 := by norm_num
      linarith
    obtain ⟨hlo, hhi⟩ := f32_binade q h0
    have he1 : -1 ≤ Int.log 2 |q| := by
      by_contra hlt
      push_neg at hlt
      have h1 : (2 : ℚ) ^ (Int.log 2 |q| + 1) ≤ 2 ^ (-1 : ℤ) :=
        zpow_le_zpow_right₀ one_le_two (by omega)
      linarith
    have he2 : Int.log 2 |q| ≤ 22 := by
      by_contra hgt
      push_neg at hgt
      have h1 : (2 : ℚ) ^ (23 : ℤ) ≤ 2 ^ (Int.log 2 |q|) :=
        zpow_le_zpow_right₀ one_le_two (by omega)
      linarith
    set e := Int.log 2 |q| with hedef
    apply f32round_grid_exact q e (n * 2 ^ (22 - e).toNat) h0 hlo hhi ?_ (by omega)
    rw [hq]
    have hcast : ((n * 2 ^ (22 - e).toNat : ℤ) : ℚ)
        = (n : ℚ) * (2 : ℚ) ^ (((22 - e).toNat : ℤ)) := by
      push_cast
      rw [zpow_natCast]
    rw [hcast, Int.toNat_of_nonneg (by omega : (0 : ℤ) ≤ 22 - e)]
    rw [mul_assoc, ← zpow_add₀ (by norm_num : (2 : ℚ) ≠ 0)]
    have hexp : 22 - e + (e - 23) = -1 := by ring
    rw [hexp, zpow_neg, zpow_one, div_eq_mul_inv]

theorem f32round_shape (q : ℚ) (h1 : 1 ≤ q) :
    ∃ m : ℤ, 2 ^ 23 ≤ m ∧ m ≤ 2 ^ 24 ∧ 0 ≤ Int.log 2 |q| ∧
      f32round q = (m : ℚ) * 2 ^ (Int.log 2 |q| - 23) := by
  have h0 : q ≠ 0 := by linarith
  obtain ⟨hlo, hhi⟩ := f32_binade q h0
  have habs : |q| = q := abs_of_pos (by linarith)
  have he0 : 0 ≤ Int.log 2 |q| := by
    by_contra h
    push_neg at h
    have h2 : (2 : ℚ) ^ (Int.log 2 |q| + 1) ≤ 2 ^ (0 : ℤ) :=
      zpow_le_zpow_right₀ one_le_two (by omega)
    rw [zpow_zero] at h2
    linarith [hhi, habs]
  set e := Int.log 2 |q| with hedef
  have hg0 : (0 : ℚ) < 2 ^ (e - 23) := by positivity
  have hpow : (2 : ℚ) ^ (23 : ℤ) * 2 ^ (e - 23) = 2 ^ e := by
    rw [← zpow_add₀ (by norm_num : (2 : ℚ) ≠ 0)]
    congr 1
    ring
  have hpow2 : (2 : ℚ) ^ (24 : ℤ) * 2 ^ (e - 23) = 2 ^ (e + 1) := by
    rw [← zpow_add₀ (by norm_num : (2 : ℚ) ≠ 0)]
    congr 1
    ring
  refine ⟨rne (q / 2 ^ (e - 23)), ?_, ?_, he0, ?_⟩
  · have hdiv : (2 : ℚ) ^ (23 : ℤ) ≤ q / 2 ^ (e - 23) := by
      rw [le_div_iff₀ hg0, hpow]
      rw [habs] at hlo
      exact hlo
    have hfl : (2 ^ 23 : ℤ) ≤ ⌊q / 2 ^ (e - 23)⌋ := by
      rw [Int.le_floor]
      have hc : (((2 ^ 23 : ℤ)) : ℚ) = (2 : ℚ) ^ (23 : ℤ) := by norm_num
      rw [hc]
      exact hdiv
    linarith [rne_ge_floor (q / 2 ^ (e - 23))]
  · have hdiv : q / 2 ^ (e - 23) < (2 : ℚ) ^ (24 : ℤ) := by
      rw [div_lt_iff₀ hg0, hpow2]
      rw [habs] at hhi
      exact hhi
    have hfl : ⌊q / 2 ^ (e - 23)⌋ < 2 ^ 24 := by
      rw [Int.floor_lt]
      have hc : (((2 ^ 24 : ℤ)) : ℚ) = (2 : ℚ) ^ (24 : ℤ) := by norm_num
      rw [hc]
      exact hdiv
    have h3 := rne_le_floor_add_one (q / 2 ^ (e - 23))
    omega
  · have hmax : max (e - 23) (-149 : ℤ) = e - 23 := by omega
    simp only [f32round, if_neg h0]
    rw [← hedef, hmax]

theorem f32round_rep_half (m e : ℤ) (hm1 : 2 ^ 23 ≤ m) (hm2 : m ≤ 2 ^ 24) (he : 0 ≤ e) :
    f32round ((m : ℚ) * 2 ^ (e - 23) / 2) = (m : ℚ) * 2 ^ (e - 23) / 2 ∧
    f32round (-((m : ℚ) * 2 ^ (e - 23) / 2)) = -((m : ℚ) * 2 ^ (e - 23) / 2) := by
  have hg0 : (0 : ℚ) < 2 ^ (e - 23) := by positivity
  have hg0' : (0 : ℚ) < 2 ^ (e - 24) := by positivity
  have hm0 : (0 : ℚ) < (m : ℚ) := by
    have : (0 : ℤ) < m := by positivity
    exact_mod_cast this
  have hhalf : (m : ℚ) * 2 ^ (e - 23) / 2 = (m : ℚ) * 2 ^ (e - 24) := by
    have h2 : (2 : ℚ) ^ (e - 23) = 2 ^ (e - 24) * 2 := by
      rw [← zpow_add_one₀ (by norm_num : (2 : ℚ) ≠ 0)]
      congr 1
      ring
    rw [h2]
    ring
  rcases lt_or_eq_of_le hm2 with hlt | heq
  · -- m < 2^24 : the half lives in the binade [2^(e-1), 2^e)
    have habs : |(m : ℚ) * 2 ^ (e - 24)| = (m : ℚ) * 2 ^ (e - 24) := by
      rw [abs_of_pos (by positivity)]
    have hlo : (2 : ℚ) ^ (e - 1) ≤ |(m : ℚ) * 2 ^ (e - 24)| := by
      rw [habs]
      have hmc : ((2 : ℚ) ^ (23 : ℤ)) ≤ (m : ℚ) := by
        have hc : (((2 ^ 23 : ℤ)) : ℚ) = (2 : ℚ) ^ (23 : ℤ) := by norm_num
        rw [← hc]
        exact_mod_cast hm1
      calc (2 : ℚ) ^ (e - 1) = 2 ^ (23 : ℤ) * 2 ^ (e - 24) := by
            rw [← zpow_add₀ (by norm_num : (2 : ℚ) ≠ 0)]
            congr 1
            ring
        _ ≤ (m : ℚ) * 2 ^ (e - 24) := by
            exact mul_le_mul_of_nonneg_right hmc (le_of_lt hg0')
    have hhi : |(m : ℚ) * 2 ^ (e - 24)| < (2 : ℚ) ^ (e - 1 + 1) := by
      rw [habs]
      have hmc : (m : ℚ) < ((2 : ℚ) ^ (24 : ℤ)) := by
        have hc : (((2 ^ 24 : ℤ)) : ℚ) = (2 : ℚ) ^ (24 : ℤ) := by norm_num
        rw [← hc]
        exact_mod_cast hlt
      calc (m : ℚ) * 2 ^ (e - 24) < 2 ^ (24 : ℤ) * 2 ^ (e - 24) :=
            mul_lt_mul_of_pos_right hmc hg0'
        _ = 2 ^ (e - 1 + 1) := by
            rw [← zpow_add₀ (by norm_num : (2 : ℚ) ≠ 0)]
            congr 1
            ring
    have hmm : (m : ℚ) * 2 ^ (e - 24) = (m : ℚ) * 2 ^ (e - 1 - 23) := by
      congr 2
      ring
    constructor
    · rw [hhalf]
      exact f32round_grid_exact _ (e - 1) m (by positivity) hlo hhi (by rw [hmm]) (by omega)
    · rw [hhalf]
      have habs2 : |(-((m : ℚ) * 2 ^ (e - 24)))| = (m : ℚ) * 2 ^ (e - 24) := by
        rw [abs_neg, habs]
      refine f32round_grid_exact _ (e - 1) (-m) ?_ ?_ ?_ ?_ (by omega)
      · intro hc
        rw [neg_eq_zero] at hc
        exact absurd hc (by positivity)
      · rw [habs2]
        rw [habs] at hlo
        exact hlo
      · rw [habs2]
        rw [habs] at hhi
        exact hhi
      · push_cast
        rw [hmm]
        ring
  · -- m = 2^24 : the half is the power 2^e
    have hq : (m : ℚ) * 2 ^ (e - 24) = 2 ^ e := by
      have hmc : (m : ℚ) = (2 : ℚ) ^ (24 : ℤ) := by
        have hc : (((2 ^ 24 : ℤ)) : ℚ) = (2 : ℚ) ^ (24 : ℤ) := by norm_num
        rw [← hc]
        exact_mod_cast heq
      rw [hmc, ← zpow_add₀ (by norm_num : (2 : ℚ) ≠ 0)]
      congr 1
      ring
    have hlo : (2 : ℚ) ^ e ≤ |(2 : ℚ) ^ e| := le_of_eq (abs_of_pos (by positivity)).symm
    have hhi : |(2 : ℚ) ^ e| < (2 : ℚ) ^ (e + 1) := by
      rw [abs_of_pos (by positivity : (0:ℚ) < (2:ℚ) ^ e)]
      have h2 : (2 : ℚ) ^ (e + 1) = 2 * 2 ^ e := by
        rw [zpow_add₀ (by norm_num : (2 : ℚ) ≠ 0), zpow_one]
        ring
      have h3 : (0 : ℚ) < (2 : ℚ) ^ e := by positivity
      linarith
    have hm23 : ((2 : ℚ) ^ e) = (((2 ^ 23 : ℤ)) : ℚ) * 2 ^ (e - 23) := by
      have hc : (((2 ^ 23 : ℤ)) : ℚ) = (2 : ℚ) ^ (23 : ℤ) := by norm_num
      rw [hc, ← zpow_add₀ (by norm_num : (2 : ℚ) ≠ 0)]
      congr 1
      ring
    constructor
    · rw [hhalf, hq]
      exact f32round_grid_exact _ e (2 ^ 23) (by positivity) hlo hhi hm23 (by omega)
    · rw [hhalf, hq]
      refine f32round_grid_exact _ e (-(2 ^ 23)) ?_ ?_ ?_ ?_ (by omega)
      · intro hc
        rw [neg_eq_zero] at hc
        exact absurd hc (by positivity)
      · rw [abs_neg]
        exact hlo
      · rw [abs_neg]
        exact hhi
      · rw [hm23]
        push_cast
        ring

theorem f32ofInt_small (n : ℤ) (h : |n| < 2 ^ 23) : f32ofInt n = (n : ℚ) := by
  unfold f32ofInt
  apply f32round_half _ (2 * n)
  · push_cast
    ring
  · rw [← Int.cast_abs]
    have hc : ((2 ^ 23 : ℤ) : ℚ) = (2 : ℚ) ^ (23 : ℤ) := by norm_num
    rw [← hc]
    exact_mod_cast h

theorem f32round_pow30 : f32round (1073741824 : ℚ) = 1073741824 := by
  apply f32round_grid_exact _ 30 8388608 (by norm_num) ?_ ?_ ?_ (by omega)
  · rw [abs_of_pos (by norm_num)]
    norm_num
  · rw [abs_of_pos (by norm_num)]
    norm_num
  · norm_num

theorem f32round_pow29 : f32round (536870912 : ℚ) = 536870912 := by
  apply f32round_grid_exact _ 29 8388608 (by norm_num) ?_ ?_ ?_ (by omega)
  · rw [abs_of_pos (by norm_num)]
    norm_num
  · rw [abs_of_pos (by norm_num)]
    norm_num
  · norm_num

theorem f32round_pow29_sub_one : f32round (536870911 : ℚ) = 536870912 := by
  have h0 : (536870911 : ℚ) ≠ 0 := by norm_num
  have hlog : Int.log 2 |(536870911 : ℚ)| = 28 := by
    rw [abs_of_pos (by norm_num)]
    apply int_log2_eq (by norm_num)
    · norm_num
    · norm_num
  have hmax : max (28 - 23 : ℤ) (-149 : ℤ) = 5 := by omega
  simp only [f32round, if_neg h0, hlog, hmax]
  have hfl : ⌊(536870911 : ℚ) / 2 ^ (5 : ℤ)⌋ = 16777215 := by
    rw [Int.floor_eq_iff]
    norm_num
  have hrne : rne ((536870911 : ℚ) / 2 ^ (5 : ℤ)) = 16777216 := by
    unfold rne
    rw [hfl]
    norm_num
  rw [hrne]
  norm_num

theorem LineIter.next_eq (s : LineIter) :
    s.next =
      if s.is_finished then (none, s)
      else if s.next_coord = s.end_coord then (some s.end_coord, { s with is_finished := true })
      else (some s.next_coord,
        if f32sub s.fault (f32ofInt s.minor_fault) < 0 then
          { s with
              next_coord := s.next_coord + s.major_step + s.minor_step
              fault := f32add (f32sub s.fault (f32ofInt s.minor_fault)) (f32ofInt s.major_fault) }
        else
          { s with
              next_coord := s.next_coord + s.major_step
              fault := f32sub s.fault (f32ofInt s.minor_fault) }) := by
  unfold LineIter.next
  split
  · rfl
  · split
    · rfl
    · dsimp only
      split <;> rfl

theorem LineIter.next_finished {s : LineIter} (h : s.is_finished = true) :
    s.next = (none, s) := by
  rw [LineIter.next_eq, h, if_pos rfl]

theorem LineIter.next_emit_end {s : LineIter} (h : s.is_finished = false)
    (h2 : s.next_coord = s.end_coord) :
    s.next = (some s.end_coord, { s with is_finished := true }) := by
  rw [LineIter.next_eq, h, if_neg Bool.false_ne_true, if_pos h2]

theorem LineIter.next_step {s : LineIter} (h : s.is_finished = false)
    (h2 : s.next_coord ≠ s.end_coord) :
    s.next = (some s.next_coord,
      if f32sub s.fault (f32ofInt s.minor_fault) < 0 then
        { s with
            next_coord := s.next_coord + s.major_step + s.minor_step
            fault := f32add (f32sub s.fault (f32ofInt s.minor_fault)) (f32ofInt s.major_fault) }
      else
        { s with
            next_coord := s.next_coord + s.major_step
            fault := f32sub s.fault (f32ofInt s.minor_fault) }) := by
  rw [LineIter.next_eq, h, if_neg Bool.false_ne_true, if_neg h2]

theorem LineIter.emit_finished {s : LineIter} (h : s.is_finished = true) :
    ∀ fuel, LineIter.emit fuel s = [] := by
  intro fuel
  cases fuel with
  | zero => rfl
  | succ f => simp only [LineIter.emit, LineIter.next_finished h]

theorem LineIter.emit_succ (s : LineIter) (c : Coord) (s' : LineIter)
    (h : s.next = (some c, s')) (fuel : ℕ) :
    LineIter.emit (fuel + 1) s = c :: LineIter.emit fuel s' := by
  simp only [LineIter.emit, h]

theorem LineIter.advance_finished {s : LineIter} (h : s.is_finished = true) :
    s.advance = s := by
  unfold LineIter.advance
  rw [LineIter.next_finished h]

theorem lineRun_succ (a b : Coord) (k : ℕ) :
    lineRun a b (k + 1) = (lineRun a b k).advance := by
  unfold lineRun
  rw [Function.iterate_succ_apply']

theorem line_major_step (a b : Coord) : (line a b).major_step = lineS a b := rfl

theorem line_minor_step (a b : Coord) : (line a b).minor_step = lineT a b := rfl

theorem line_major_fault (a b : Coord) : (line a b).major_fault = (chebDist a b : ℤ) := by
  simp only [line, chebDist, Coord.sub_x, Coord.sub_y]
  split <;> omega

theorem line_minor_fault (a b : Coord) : (line a b).minor_fault = (minDist a b : ℤ) := by
  simp only [line, minDist, Coord.sub_x, Coord.sub_y]
  split <;> omega

theorem line_fault_def (a b : Coord) :
    (line a b).fault = f32div (f32ofInt ((line a b).major_fault)) 2 := rfl

theorem exactRel_next {s : LineIter} {x : LineIterX} (h : ExactRel s x) :
    s.next.1 = x.next.1 ∧ ExactRel s.next.2 x.next.2 := by
  have hmf0 : (0 : ℤ) ≤ x.major_fault := le_trans h.nf0 h.nfM
  have hofN : f32ofInt s.minor_fault = (x.minor_fault : ℚ) := by
    rw [h.nf]
    apply f32ofInt_small
    rw [abs_of_nonneg h.nf0]
    have := h.mfB
    have := h.nfM
    omega
  have hofM : f32ofInt s.major_fault = (x.major_fault : ℚ) := by
    rw [h.mf]
    apply f32ofInt_small
    rw [abs_of_nonneg hmf0]
    exact h.mfB
  obtain ⟨n, hn⟩ := h.half
  have hc23 : ((2 ^ 23 : ℤ) : ℚ) = (2 : ℚ) ^ (23 : ℤ) := by norm_num
  have hMq : (x.major_fault : ℚ) < (2 : ℚ) ^ (23 : ℤ) := by
    rw [← hc23]
    exact_mod_cast h.mfB
  have hNq : (0 : ℚ) ≤ (x.minor_fault : ℚ) := by exact_mod_cast h.nf0
  have hNMq : (x.minor_fault : ℚ) ≤ (x.major_fault : ℚ) := by exact_mod_cast h.nfM
  have hMq0 : (0 : ℚ) ≤ (x.major_fault : ℚ) := by exact_mod_cast hmf0
  have hsub : f32sub s.fault (f32ofInt s.minor_fault) = x.fault - (x.minor_fault : ℚ) := by
    rw [hofN, h.flt]
    unfold f32sub
    apply f32round_half _ (n - 2 * x.minor_fault)
    · rw [hn]
      push_cast
      ring
    · rw [abs_lt]
      constructor
      · have := h.f0
        linarith
      · have := h.fM
        linarith
  cases hfin : s.is_finished with
  | true =>
    have hfin' : x.is_finished = true := by rw [← h.fin]; exact hfin
    rw [LineIter.next_finished hfin, LineIterX.nextX_finished hfin']
    exact ⟨rfl, h⟩
  | false =>
    have hfin' : x.is_finished = false := by rw [← h.fin]; exact hfin
    by_cases h2 : s.next_coord = s.end_coord
    · have h2' : x.next_coord = x.end_coord := by rw [← h.nc, ← h.ec]; exact h2
      rw [LineIter.next_emit_end hfin h2, LineIterX.nextX_emit_end hfin' h2']
      exact ⟨by rw [h.ec], h.ec, h.nc, h.ms, h.ts, h.mf, h.nf, rfl, h.flt, h.half, h.f0,
        h.fM, h.nf0, h.nfM, h.mfB⟩
    · have h2' : x.next_coord ≠ x.end_coord := by rw [← h.nc, ← h.ec]; exact h2
      rw [LineIter.next_step hfin h2, LineIterX.nextX_step hfin' h2']
      refine ⟨by rw [h.nc], ?_⟩
      rw [hsub]
      by_cases h3 : x.fault - (x.minor_fault : ℚ) < 0
      · rw [if_pos h3, if_pos h3]
        have hadd : f32add (x.fault - (x.minor_fault : ℚ)) (f32ofInt s.major_fault)
            = x.fault - (x.minor_fault : ℚ) + (x.major_fault : ℚ) := by
          rw [hofM]
          unfold f32add
          apply f32round_half _ (n - 2 * x.minor_fault + 2 * x.major_fault)
          · rw [hn]
            push_cast
            ring
          · rw [abs_lt]
            constructor
            · have := h.f0
              linarith
            · linarith
        rw [hadd]
        refine ⟨h.ec, ?_, h.ms, h.ts, h.mf, h.nf, h.fin, rfl, ?_, ?_, ?_, h.nf0, h.nfM, h.mfB⟩
        · rw [h.nc, h.ms, h.ts]
        · exact ⟨n - 2 * x.minor_fault + 2 * x.major_fault, by rw [hn]; push_cast; ring⟩
        · show (0 : ℚ) ≤ x.fault - (x.minor_fault : ℚ) + (x.major_fault : ℚ)
          have := h.f0
          linarith
        · show x.fault - (x.minor_fault : ℚ) + (x.major_fault : ℚ) ≤ (x.major_fault : ℚ)
          linarith
      · rw [if_neg h3, if_neg h3]
        push_neg at h3
        refine ⟨h.ec, ?_, h.ms, h.ts, h.mf, h.nf, h.fin, rfl, ?_, ?_, ?_, h.nf0, h.nfM, h.mfB⟩
        · rw [h.nc, h.ms]
        · exact ⟨n - 2 * x.minor_fault, by rw [hn]; push_cast; ring⟩
        · show (0 : ℚ) ≤ x.fault - (x.minor_fault : ℚ)
          linarith
        · show x.fault - (x.minor_fault : ℚ) ≤ (x.major_fault : ℚ)
          have := h.fM
          linarith

theorem exactRel_emit {s : LineIter} {x : LineIterX} (h : ExactRel s x) :
    ∀ fuel : ℕ, LineIter.emit fuel s = LineIterX.emit fuel x := by
  intro fuel
  induction fuel generalizing s x with
  | zero => rfl
  | succ n ih =>
    obtain ⟨hout, hrel⟩ := exactRel_next h
    rcases hs : s.next with ⟨o, s'⟩
    rcases hx : x.next with ⟨o', x'⟩
    rw [hs, hx] at hout hrel
    dsimp only at hout hrel
    subst hout
    simp only [LineIter.emit, LineIterX.emit, hs, hx]
    cases o with
    | none => rfl
    | some c =>
      simp only
      rw [ih hrel]

theorem exactRel_line (a b : Coord) (hB : chebDist a b < 2 ^ 23) :
    ExactRel (line a b) (lineX a b) := by
  have hMI : (0 : ℤ) ≤ (chebDist a b : ℤ) := Int.natCast_nonneg _
  have hBI : (chebDist a b : ℤ) < 2 ^ 23 := by exact_mod_cast hB
  have hMq0 : (0 : ℚ) ≤ ((chebDist a b : ℤ) : ℚ) := by exact_mod_cast hMI
  have hc23 : ((2 ^ 23 : ℤ) : ℚ) = (2 : ℚ) ^ (23 : ℤ) := by norm_num
  have hBq : ((chebDist a b : ℤ) : ℚ) < (2 : ℚ) ^ (23 : ℤ) := by
    rw [← hc23]
    exact_mod_cast hBI
  have hflt : (line a b).fault = (lineX a b).fault := by
    rw [line_fault_def, lineX_fault, line_major_fault]
    have h1 : f32ofInt (chebDist a b : ℤ) = ((chebDist a b : ℤ) : ℚ) := by
      apply f32ofInt_small
      rw [abs_of_nonneg hMI]
      exact hBI
    rw [h1]
    unfold f32div
    apply f32round_half _ (chebDist a b : ℤ)
    · rfl
    · rw [abs_of_nonneg (by positivity)]
      linarith
  refine ⟨rfl, rfl, rfl, rfl, rfl, rfl, rfl, hflt, ?_, ?_, ?_, ?_, ?_, ?_⟩
  · exact ⟨(chebDist a b : ℤ), by rw [lineX_fault]⟩
  · rw [lineX_fault]
    positivity
  · rw [lineX_fault, lineX_major_fault]
    linarith
  · rw [lineX_minor_fault]
    exact Int.natCast_nonneg _
  · rw [lineX_minor_fault, lineX_major_fault]
    exact_mod_cast minDist_le_chebDist a b
  · rw [lineX_major_fault]
    exact hBI

theorem line_emit_eq_exact (a b : Coord) (hB : chebDist a b < 2 ^ 23) (fuel : ℕ) :
    LineIter.emit fuel (line a b) = LineIterX.emit fuel (lineX a b) :=
  exactRel_emit (exactRel_line a b hB) fuel

theorem exactRel_run (a b : Coord) (hB : chebDist a b < 2 ^ 23) :
    ∀ k : ℕ, ExactRel (lineRun a b k) (lineRunX a b k) := by
  intro k
  induction k with
  | zero => exact exactRel_line a b hB
  | succ k ih =>
    rw [lineRun_succ, lineRunX_succ]
    exact (exactRel_next ih).2

theorem f32ofInt_shape (M : ℤ) (h : 1 ≤ M) :
    ∃ m e : ℤ, 2 ^ 23 ≤ m ∧ m ≤ 2 ^ 24 ∧ 0 ≤ e ∧ f32ofInt M = (m : ℚ) * 2 ^ (e - 23) := by
  have h1 : (1 : ℚ) ≤ (M : ℚ) := by exact_mod_cast h
  obtain ⟨m, hm1, hm2, he, hf⟩ := f32round_shape (M : ℚ) h1
  exact ⟨m, Int.log 2 |(M : ℚ)|, hm1, hm2, he, hf⟩

theorem f32ofInt_half_exact (M : ℤ) (h : 1 ≤ M) :
    f32round (f32ofInt M / 2) = f32ofInt M / 2 ∧
    f32round (-(f32ofInt M / 2)) = -(f32ofInt M / 2) ∧ 0 < f32ofInt M := by
  obtain ⟨m, e, hm1, hm2, he, hf⟩ := f32ofInt_shape M h
  have hm0 : (0 : ℚ) < (m : ℚ) := by
    have : (0 : ℤ) < m := lt_of_lt_of_le (by norm_num) hm1
    exact_mod_cast this
  have hpos : 0 < (m : ℚ) * 2 ^ (e - 23) := by positivity
  rw [hf]
  exact ⟨(f32round_rep_half m e hm1 hm2 he).1, (f32round_rep_half m e hm1 hm2 he).2, hpos⟩

theorem coord_add_zero (c : Coord) : c + (⟨0, 0⟩ : Coord) = c := by
  rw [Coord.ext_iff]
  simp

theorem axisRel_next {s : LineIter} {x : LineIterX} (h : AxisRel s x) :
    s.next.1 = x.next.1 ∧ AxisRel s.next.2 x.next.2 := by
  have htz' : x.minor_step = (⟨0, 0⟩ : Coord) := by rw [← h.ts]; exact h.tz
  cases hfin : s.is_finished with
  | true =>
    have hfin' : x.is_finished = true := by rw [← h.fin]; exact hfin
    rw [LineIter.next_finished hfin, LineIterX.nextX_finished hfin']
    exact ⟨rfl, h⟩
  | false =>
    have hfin' : x.is_finished = false := by rw [← h.fin]; exact hfin
    by_cases h2 : s.next_coord = s.end_coord
    · have h2' : x.next_coord = x.end_coord := by rw [← h.nc, ← h.ec]; exact h2
      rw [LineIter.next_emit_end hfin h2, LineIterX.nextX_emit_end hfin' h2']
      exact ⟨by rw [h.ec], h.ec, h.nc, h.ms, h.ts, h.mf, h.nf, rfl, h.tz⟩
    · have h2' : x.next_coord ≠ x.end_coord := by rw [← h.nc, ← h.ec]; exact h2
      rw [LineIter.next_step hfin h2, LineIterX.nextX_step hfin' h2']
      refine ⟨by rw [h.nc], ?_⟩
      by_cases hc1 : f32sub s.fault (f32ofInt s.minor_fault) < 0 <;>
        by_cases hc2 : x.fault - (x.minor_fault : ℚ) < 0 <;>
        [rw [if_pos hc1, if_pos hc2]; rw [if_pos hc1, if_neg hc2];
          rw [if_neg hc1, if_pos hc2]; rw [if_neg hc1, if_neg hc2]] <;>
        exact ⟨h.ec, by simp only [h.nc, h.ms, h.tz, htz', coord_add_zero],
          h.ms, h.ts, h.mf, h.nf, h.fin, h.tz⟩

theorem axisRel_emit {s : LineIter} {x : LineIterX} (h : AxisRel s x) :
    ∀ fuel : ℕ, LineIter.emit fuel s = LineIterX.emit fuel x := by
  intro fuel
  induction fuel generalizing s x with
  | zero => rfl
  | succ n ih =>
    obtain ⟨hout, hrel⟩ := axisRel_next h
    rcases hs : s.next with ⟨o, s'⟩
    rcases hx : x.next with ⟨o', x'⟩
    rw [hs, hx] at hout hrel
    dsimp only at hout hrel
    subst hout
    simp only [LineIter.emit, LineIterX.emit, hs, hx]
    cases o with
    | none => rfl
    | some c =>
      simp only
      rw [ih hrel]

theorem axisRel_line (a b : Coord) (h0 : minDist a b = 0) :
    AxisRel (line a b) (lineX a b) :=
  ⟨rfl, rfl, rfl, rfl, rfl, rfl, rfl, by rw [line_minor_step, lineT_zero a b h0]⟩

theorem diagRel_next {s : LineIter} {x : LineIterX} (h : DiagRel s x) :
    s.next.1 = x.next.1 ∧ DiagRel s.next.2 x.next.2 := by
  have hM1 : (1 : ℤ) ≤ x.major_fault := h.mpos
  have hMq : (0 : ℚ) < (x.major_fault : ℚ) := by exact_mod_cast h.mpos
  have hhalf := f32ofInt_half_exact x.major_fault hM1
  cases hfin : s.is_finished with
  | true =>
    have hfin' : x.is_finished = true := by rw [← h.fin]; exact hfin
    rw [LineIter.next_finished hfin, LineIterX.nextX_finished hfin']
    exact ⟨rfl, h⟩
  | false =>
    have hfin' : x.is_finished = false := by rw [← h.fin]; exact hfin
    by_cases h2 : s.next_coord = s.end_coord
    · have h2' : x.next_coord = x.end_coord := by rw [← h.nc, ← h.ec]; exact h2
      rw [LineIter.next_emit_end hfin h2, LineIterX.nextX_emit_end hfin' h2']
      exact ⟨by rw [h.ec], h.ec, h.nc, h.ms, h.ts, h.mf, h.nf, rfl, h.sflt, h.xflt,
        h.diag, h.mpos⟩
    · have h2' : x.next_coord ≠ x.end_coord := by rw [← h.nc, ← h.ec]; exact h2
      rw [LineIter.next_step hfin h2, LineIterX.nextX_step hfin' h2']
      have hsub1 : f32sub s.fault (f32ofInt s.minor_fault) = -(f32ofInt x.major_fault / 2) := by
        rw [h.nf, h.diag, h.sflt, h.mf]
        unfold f32sub
        have he : f32ofInt x.major_fault / 2 - f32ofInt x.major_fault
            = -(f32ofInt x.major_fault / 2) := by ring
        rw [he]
        exact hhalf.2.1
      have hclt : -(f32ofInt x.major_fault / 2) < 0 := by
        have := hhalf.2.2
        linarith
      have hx3 : x.fault - (x.minor_fault : ℚ) < 0 := by
        rw [h.xflt, h.diag]
        linarith
      have hadd1 : f32add (-(f32ofInt x.major_fault / 2)) (f32ofInt s.major_fault)
          = f32ofInt x.major_fault / 2 := by
        rw [h.mf]
        unfold f32add
        have he2 : -(f32ofInt x.major_fault / 2) + f32ofInt x.major_fault
            = f32ofInt x.major_fault / 2 := by ring
        rw [he2]
        exact hhalf.1
      rw [hsub1, if_pos hclt, if_pos hx3, hadd1]
      refine ⟨by rw [h.nc], h.ec, ?_, h.ms, h.ts, h.mf, h.nf, h.fin, ?_, ?_, h.diag, h.mpos⟩
      · show s.next_coord + s.major_step + s.minor_step
          = x.next_coord + x.major_step + x.minor_step
        rw [h.nc, h.ms, h.ts]
      · show f32ofInt x.major_fault / 2 = f32ofInt s.major_fault / 2
        rw [h.mf]
      · show x.fault - (x.minor_fault : ℚ) + (x.major_fault : ℚ) = (x.major_fault : ℚ) / 2
        rw [h.xflt, h.diag]
        ring

theorem diagRel_emit {s : LineIter} {x : LineIterX} (h : DiagRel s x) :
    ∀ fuel : ℕ, LineIter.emit fuel s = LineIterX.emit fuel x := by
  intro fuel
  induction fuel generalizing s x with
  | zero => rfl
  | succ n ih =>
    obtain ⟨hout, hrel⟩ := diagRel_next h
    rcases hs : s.next with ⟨o, s'⟩
    rcases hx : x.next with ⟨o', x'⟩
    rw [hs, hx] at hout hrel
    dsimp only at hout hrel
    subst hout
    simp only [LineIter.emit, LineIterX.emit, hs, hx]
    cases o with
    | none => rfl
    | some c =>
      simp only
      rw [ih hrel]

theorem diagRel_line (a b : Coord) (hd : minDist a b = chebDist a b) (hab : a ≠ b) :
    DiagRel (line a b) (lineX a b) := by
  have hM1 : (1 : ℤ) ≤ (chebDist a b : ℤ) := by
    have hne : chebDist a b ≠ 0 := fun hc => hab ((chebDist_eq_zero_iff a b).1 hc)
    exact_mod_cast Nat.one_le_iff_ne_zero.2 hne
  refine ⟨rfl, rfl, rfl, rfl, rfl, rfl, rfl, ?_, ?_, ?_, ?_⟩
  · show (line a b).fault = f32ofInt (line a b).major_fault / 2
    rw [line_fault_def, line_major_fault]
    unfold f32div
    exact (f32ofInt_half_exact _ hM1).1
  · rw [lineX_fault, lineX_major_fault]
  · rw [lineX_minor_fault, lineX_major_fault]
    exact_mod_cast hd
  · rw [lineX_major_fault]
    omega

theorem line_emit_eq_special (a b : Coord)
    (h : minDist a b = 0 ∨ minDist a b = chebDist a b) (fuel : ℕ) :
    LineIter.emit fuel (line a b) = LineIterX.emit fuel (lineX a b) := by
  by_cases h0 : minDist a b = 0
  · exact axisRel_emit (axisRel_line a b h0) fuel
  · have hd : minDist a b = chebDist a b := h.resolve_left h0
    have hab : a ≠ b := by
      intro he
      apply h0
      subst he
      simp [minDist]
    exact diagRel_emit (diagRel_line a b hd hab) fuel

theorem stuck_next (k : ℤ) :
    LineIter.next
      { end_coord := ⟨1073741824, 1⟩, next_coord := ⟨k, 0⟩, major_step := ⟨1, 0⟩,
        minor_step := ⟨0, 1⟩, fault := 536870912, major_fault := 1073741824,
        minor_fault := 1, is_finished := false }
      = (some ⟨k, 0⟩,
        { end_coord := ⟨1073741824, 1⟩, next_coord := ⟨k + 1, 0⟩, major_step := ⟨1, 0⟩,
          minor_step := ⟨0, 1⟩, fault := 536870912, major_fault := 1073741824,
          minor_fault := 1, is_finished := false }) := by
  have hne : (⟨k, 0⟩ : Coord) ≠ (⟨1073741824, 1⟩ : Coord) := by
    rw [Ne, Coord.ext_iff]
    simp
  rw [LineIter.next_step rfl hne]
  have hof1 : f32ofInt (1 : ℤ) = (1 : ℚ) := by
    apply f32ofInt_small
    decide
  have hsub : f32sub (536870912 : ℚ) (f32ofInt 1) = 536870912 := by
    rw [hof1]
    unfold f32sub
    have he : (536870912 : ℚ) - 1 = 536870911 := by norm_num
    rw [he, f32round_pow29_sub_one]
  rw [hsub, if_neg (by norm_num)]
  have hstep : (⟨k, 0⟩ : Coord) + (⟨1, 0⟩ : Coord) = (⟨k + 1, 0⟩ : Coord) := by
    rw [Coord.ext_iff]
    simp
  rw [hstep]

theorem line_pow30_eq :
    line ⟨0, 0⟩ ⟨1073741824, 1⟩ =
      { end_coord := ⟨1073741824, 1⟩, next_coord := ⟨0, 0⟩, major_step := ⟨1, 0⟩,
        minor_step := ⟨0, 1⟩, fault := 536870912, major_fault := 1073741824,
        minor_fault := 1, is_finished := false } := by
  have hf : f32div (f32ofInt (1073741824 : ℤ)) 2 = (536870912 : ℚ) := by
    have h1 : f32ofInt (1073741824 : ℤ) = (1073741824 : ℚ) := by
      unfold f32ofInt
      have hc : ((1073741824 : ℤ) : ℚ) = (1073741824 : ℚ) := by norm_num
      rw [hc, f32round_pow30]
    rw [h1]
    unfold f32div
    have hd : (1073741824 : ℚ) / 2 = 536870912 := by norm_num
    rw [hd, f32round_pow29]
  unfold line
  have hd : (⟨1073741824, 1⟩ : Coord) - (⟨0, 0⟩ : Coord) = (⟨1073741824, 1⟩ : Coord) := by
    rw [Coord.ext_iff]
    simp
  rw [hd]
  dsimp only
  have hmaj : (1073741824 : ℤ).natAbs > (1 : ℤ).natAbs := by decide
  rw [if_pos hmaj, if_pos hmaj, if_pos hmaj, if_pos hmaj]
  have hsx : (1073741824 : ℤ).sign = 1 := by decide
  have hsy : (1 : ℤ).sign = 1 := by decide
  have hna : (((1073741824 : ℤ).natAbs : ℤ)) = 1073741824 := by decide
  have hnb : (((1 : ℤ).natAbs : ℤ)) = 1 := by decide
  rw [hsx, hsy, hna, hnb, hf]
  rfl

theorem line_f32_stuck : ∀ k : ℕ,
    lineRun ⟨0, 0⟩ ⟨1073741824, 1⟩ k =
      { end_coord := ⟨1073741824, 1⟩, next_coord := ⟨(k : ℤ), 0⟩, major_step := ⟨1, 0⟩,
        minor_step := ⟨0, 1⟩, fault := 536870912, major_fault := 1073741824,
        minor_fault := 1, is_finished := false } := by
  intro k
  induction k with
  | zero =>
    show line ⟨0, 0⟩ ⟨1073741824, 1⟩ = _
    rw [line_pow30_eq]
    have h0 : (((0 : ℕ) : ℤ)) = (0 : ℤ) := by norm_num
    rw [h0]
  | succ k ih =>
    rw [lineRun_succ, ih]
    show (LineIter.next _).2 = _
    rw [stuck_next (k : ℤ)]
    have hc : ((k : ℤ) + 1) = (((k + 1 : ℕ)) : ℤ) := by push_cast; ring
    rw [hc]

theorem stuck_emit : ∀ (fuel : ℕ) (k : ℤ),
    LineIter.emit fuel
      { end_coord := ⟨1073741824, 1⟩, next_coord := ⟨k, 0⟩, major_step := ⟨1, 0⟩,
        minor_step := ⟨0, 1⟩, fault := 536870912, major_fault := 1073741824,
        minor_fault := 1, is_finished := false }
      = (List.range fuel).map (fun (i : ℕ) => (⟨k + (i : ℤ), 0⟩ : Coord)) := by
  intro fuel
  induction fuel with
  | zero => intro k; rfl
  | succ n ih =>
    intro k
    rw [LineIter.emit_succ _ _ _ (stuck_next k)]
    rw [ih (k + 1)]
    conv_rhs => rw [List.range_succ_eq_map]
    simp only [List.map_cons, List.map_map, Nat.cast_zero, add_zero]
    refine congrArg₂ List.cons rfl ?_
    apply List.map_congr_left
    intro i hi
    simp only [Function.comp]
    rw [Coord.ext_iff]
    exact ⟨by push_cast; ring, rfl⟩

theorem line_emit_stuck (fuel : ℕ) :
    LineIter.emit fuel (line ⟨0, 0⟩ ⟨1073741824, 1⟩)
      = (List.range fuel).map (fun (i : ℕ) => (⟨(i : ℤ), 0⟩ : Coord)) := by
  rw [line_pow30_eq, stuck_emit fuel 0]
  apply List.map_congr_left
  intro i hi
  rw [Coord.ext_iff]
  exact ⟨by ring, rfl⟩

/-- Claim C1 (amended): for endpoints whose Chebyshev distance is below
`2^23` — where every `f32` fault computation is exact — and any fuel bound
of at least `chebDist+1` calls, `line a b` emits a sequence of length
`max(|dx|,|dy|)+1` whose first element is `a` and last is `b`, with
consecutive elements distinct and differing by at most one in each
component; for `a = b` the sequence is exactly `[a]`. -/
theorem line_length_endpoints_steps (a b : Coord) (fuel : ℕ)
    (hB : chebDist a b < 2 ^ 23) (hf : chebDist a b + 1 ≤ fuel) :
    (LineIter.emit fuel (line a b)).length = chebDist a b + 1 ∧
    (LineIter.emit fuel (line a b)).head? = some a ∧
    (LineIter.emit fuel (line a b)).getLast? = some b ∧
    List.Chain' unitStepClose (LineIter.emit fuel (line a b)) ∧
    (a = b → LineIter.emit fuel (line a b) = [a]) := by
  rw [line_emit_eq_exact a b hB fuel]
  exact lineX_length_endpoints_steps a b fuel hf

/-- Witness for claim C1 at endpoints (0,0), (3,1) and fuel 4. -/
theorem line_length_endpoints_steps_witness :
    (LineIter.emit 4 (line ⟨0, 0⟩ ⟨3, 1⟩)).length = chebDist ⟨0, 0⟩ ⟨3, 1⟩ + 1 ∧
    (LineIter.emit 4 (line ⟨0, 0⟩ ⟨3, 1⟩)).head? = some ⟨0, 0⟩ ∧
    (LineIter.emit 4 (line ⟨0, 0⟩ ⟨3, 1⟩)).getLast? = some ⟨3, 1⟩ ∧
    List.Chain' unitStepClose (LineIter.emit 4 (line ⟨0, 0⟩ ⟨3, 1⟩)) ∧
    ((⟨0, 0⟩ : Coord) = ⟨3, 1⟩ → LineIter.emit 4 (line ⟨0, 0⟩ ⟨3, 1⟩) = [⟨0, 0⟩]) :=
  line_length_endpoints_steps ⟨0, 0⟩ ⟨3, 1⟩ 4 (by decide) (by decide)

/-- Counterexample to claim C1 as stated: at endpoints (0,0) and (2^30,1)
the initial fault rounds to `2^29` and `2^29 - 1` rounds back to `2^29`, so
the minor step never fires; even with fuel `chebDist+1` the last emitted
element is not the endpoint `(2^30,1)`. -/
theorem line_length_endpoints_steps_cex :
    chebDist ⟨0, 0⟩ ⟨1073741824, 1⟩ + 1 ≤ 1073741825 ∧
    (LineIter.emit 1073741825 (line ⟨0, 0⟩ ⟨1073741824, 1⟩)).getLast?
      ≠ some (⟨1073741824, 1⟩ : Coord) := by
  refine ⟨by decide, ?_⟩
  rw [line_emit_stuck]
  rw [show (1073741825 : ℕ) = 1073741824 + 1 from rfl, List.range_succ, List.map_append]
  simp only [List.map_cons, List.map_nil]
  rw [List.getLast?_concat]
  intro hcontra
  rw [Option.some.injEq, Coord.ext_iff] at hcontra
  exact absurd hcontra.2 (by decide)

/-- Claim C3 (amended): for endpoints whose Chebyshev distance is below
`2^23`, the iterator terminates — each of the first `chebDist+1` calls to
`next` returns `some`, the call at index `chebDist` returns the `to`
coordinate and marks the iterator exhausted, and every later call returns
`none`. -/
theorem line_iter_terminates (a b : Coord) (hB : chebDist a b < 2 ^ 23) :
    (∀ k : ℕ, k ≤ chebDist a b → ((lineRun a b k).next.1).isSome = true) ∧
    (lineRun a b (chebDist a b)).next.1 = some b ∧
    (lineRun a b (chebDist a b + 1)).is_finished = true ∧
    (∀ k : ℕ, chebDist a b < k → (lineRun a b k).next.1 = none) := by
  have hrel : ∀ k, ExactRel (lineRun a b k) (lineRunX a b k) := exactRel_run a b hB
  have h := lineRunX_terminates a b
  refine ⟨?_, ?_, ?_, ?_⟩
  · intro k hk
    rw [(exactRel_next (hrel k)).1]
    exact h.1 k hk
  · rw [(exactRel_next (hrel _)).1]
    exact h.2.1
  · rw [(hrel _).fin]
    exact h.2.2.1
  · intro k hk
    rw [(exactRel_next (hrel k)).1]
    exact h.2.2.2 k hk

/-- Witness for claim C3 at endpoints (0,0), (3,1). -/
theorem line_iter_terminates_witness :
    (∀ k : ℕ, k ≤ chebDist ⟨0, 0⟩ ⟨3, 1⟩ →
      ((lineRun ⟨0, 0⟩ ⟨3, 1⟩ k).next.1).isSome = true) ∧
    (lineRun ⟨0, 0⟩ ⟨3, 1⟩ (chebDist ⟨0, 0⟩ ⟨3, 1⟩)).next.1 = some ⟨3, 1⟩ ∧
    (lineRun ⟨0, 0⟩ ⟨3, 1⟩ (chebDist ⟨0, 0⟩ ⟨3, 1⟩ + 1)).is_finished = true ∧
    (∀ k : ℕ, chebDist ⟨0, 0⟩ ⟨3, 1⟩ < k → (lineRun ⟨0, 0⟩ ⟨3, 1⟩ k).next.1 = none) :=
  line_iter_terminates ⟨0, 0⟩ ⟨3, 1⟩ (by decide)

/-- Counterexample to claim C3 as stated: at endpoints (0,0) and (2^30,1)
the `f32` fault is stuck at `2^29`, the iterator never reaches the `to`
coordinate, and the call at index `chebDist+1` — past the claimed
exhaustion point — still yields a coordinate. -/
theorem line_iter_terminates_cex :
    chebDist ⟨0, 0⟩ ⟨1073741824, 1⟩ < 1073741825 ∧
    (lineRun ⟨0, 0⟩ ⟨1073741824, 1⟩ 1073741825).next.1 ≠ none := by
  refine ⟨by decide, ?_⟩
  rw [line_f32_stuck 1073741825, stuck_next]
  simp

/-- Claim C4 (amended): for endpoints whose Chebyshev distance is below
`2^23`, where the `f32` fault computations are exact, the implemented
tracer produces exactly the same coordinate sequence as the spec's
reference algorithm with an integer-valued doubled fault. -/
theorem line_emit_eq_ref (a b : Coord) (fuel : ℕ) (hB : chebDist a b < 2 ^ 23) :
    LineIter.emit fuel (line a b) = LineIterRef.emit fuel (lineRef a b) := by
  rw [line_emit_eq_exact a b hB fuel, lineX_emit_eq_ref]

/-- Witness for claim C4 at endpoints (0,0), (3,1) and fuel 4. -/
theorem line_emit_eq_ref_witness :
    LineIter.emit 4 (line ⟨0, 0⟩ ⟨3, 1⟩) = LineIterRef.emit 4 (lineRef ⟨0, 0⟩ ⟨3, 1⟩) :=
  line_emit_eq_ref ⟨0, 0⟩ ⟨3, 1⟩ 4 (by decide)

/-- Counterexample to claim C4 as stated: at endpoints (0,0) and (2^30,1)
the implemented `f32` tracer diverges from the integer reference — with
fuel `chebDist+2` the tracer emits `chebDist+2` coordinates while the
reference has already terminated after `chebDist+1`. -/
theorem line_emit_eq_ref_cex :
    LineIter.emit 1073741826 (line ⟨0, 0⟩ ⟨1073741824, 1⟩)
      ≠ LineIterRef.emit 1073741826 (lineRef ⟨0, 0⟩ ⟨1073741824, 1⟩) := by
  intro heq
  have h1 : (LineIter.emit 1073741826 (line ⟨0, 0⟩ ⟨1073741824, 1⟩)).length
      = 1073741826 := by
    rw [line_emit_stuck]
    simp
  have h2 : (LineIterRef.emit 1073741826 (lineRef ⟨0, 0⟩ ⟨1073741824, 1⟩)).length
      = 1073741825 := by
    rw [← lineX_emit_eq_ref]
    have hx := (lineX_length_endpoints_steps ⟨0, 0⟩ ⟨1073741824, 1⟩ 1073741826 (by decide)).1
    rw [hx]
    decide
  rw [heq] at h1
  omega

/-- Claim C5: `line((0,0),(3,1))` yields exactly `[(0,0),(1,0),(2,1),(3,1)]`
under the strict-less-than fault rule the implementation uses: for every
fuel bound of at least 4 calls, exactly these four coordinates are
emitted. -/
theorem line_zero_zero_three_one (fuel : ℕ) (h : 4 ≤ fuel) :
    LineIter.emit fuel (line ⟨0, 0⟩ ⟨3, 1⟩) = [⟨0, 0⟩, ⟨1, 0⟩, ⟨2, 1⟩, ⟨3, 1⟩] := by
  rw [line_emit_eq_exact ⟨0, 0⟩ ⟨3, 1⟩ (by decide) fuel]
  exact lineX_zero_zero_three_one fuel h

/-- Witness for claim C5 at the smallest admissible fuel bound. -/
theorem line_zero_zero_three_one_witness :
    LineIter.emit 4 (line ⟨0, 0⟩ ⟨3, 1⟩) = [⟨0, 0⟩, ⟨1, 0⟩, ⟨2, 1⟩, ⟨3, 1⟩] :=
  line_zero_zero_three_one 4 (by decide)

/-- Claim C6 as stated is false: at the tied input `line((0,0),(1,1))`
(both absolute deltas equal 1), the step applied on every iteration
(`major_step`) is not the x-axis unit step but the y-axis unit step. -/
theorem line_tie_major_step_cex :
    ((⟨1, 1⟩ : Coord) - ⟨0, 0⟩).x.natAbs = ((⟨1, 1⟩ : Coord) - ⟨0, 0⟩).y.natAbs ∧
    (line ⟨0, 0⟩ ⟨1, 1⟩).major_step ≠ Coord.new 1 0 ∧
    (line ⟨0, 0⟩ ⟨1, 1⟩).major_step = Coord.new 0 1 := by
  refine ⟨rfl, ?_, rfl⟩
  decide

/-- Claim C6 (amended): when the two absolute deltas tie, the y-axis is
selected as the major axis — the unit step applied on every iteration is
the y-axis step, and the x-axis step becomes the minor step. -/
theorem line_tie_y_major (a b : Coord) (h : (b.x - a.x).natAbs = (b.y - a.y).natAbs) :
    (line a b).major_step = Coord.new 0 (b.y - a.y).sign ∧
    (line a b).minor_step = Coord.new (b.x - a.x).sign 0 := by
  have hc : ¬((b - a).x.natAbs > (b - a).y.natAbs) := by
    simp only [Coord.sub_x, Coord.sub_y]
    omega
  rw [line_major_step, line_minor_step]
  unfold lineS lineT
  rw [if_neg hc, if_neg hc]
  exact ⟨rfl, rfl⟩

/-- Witness for the amended claim C6 at the tied endpoints (0,0), (2,2). -/
theorem line_tie_y_major_witness :
    (line ⟨0, 0⟩ ⟨2, 2⟩).major_step = Coord.new 0 ((2 : ℤ) - 0).sign ∧
    (line ⟨0, 0⟩ ⟨2, 2⟩).minor_step = Coord.new ((2 : ℤ) - 0).sign 0 :=
  line_tie_y_major ⟨0, 0⟩ ⟨2, 2⟩ (by decide)

/-- Claim C8: for axis-aligned or exactly diagonal (45°) endpoints of any
magnitude, `line b a` yields exactly the reverse of the sequence of
`line a b`: on this domain the `f32` branch decisions provably coincide
with exact arithmetic at every step. -/
theorem line_reverse_special (a b : Coord)
    (h : a.x = b.x ∨ a.y = b.y ∨ (b.x - a.x).natAbs = (b.y - a.y).natAbs)
    (fuel : ℕ) (hf : chebDist a b + 1 ≤ fuel) :
    LineIter.emit fuel (line b a) = (LineIter.emit fuel (line a b)).reverse := by
  have hsp : minDist a b = 0 ∨ minDist a b = chebDist a b := by
    simp only [minDist, chebDist]
    rcases h with h | h | h <;> omega
  have hsp2 : minDist b a = 0 ∨ minDist b a = chebDist b a := by
    rw [minDist_comm, chebDist_comm]
    exact hsp
  rw [line_emit_eq_special b a hsp2 fuel, line_emit_eq_special a b hsp fuel]
  exact lineX_reverse_special a b h fuel hf

/-- Witness for claim C8 on the diagonal (0,0)–(2,2) with fuel 3. -/
theorem line_reverse_special_witness :
    LineIter.emit 3 (line ⟨2, 2⟩ ⟨0, 0⟩) = (LineIter.emit 3 (line ⟨0, 0⟩ ⟨2, 2⟩)).reverse :=
  line_reverse_special ⟨0, 0⟩ ⟨2, 2⟩ (by right; right; decide) 3 (by decide)

/-- Claim C10 (amended): for endpoints whose Chebyshev distance is below
`2^23`, every coordinate emitted by `line a b` lies in the axis-aligned
bounding rectangle of the endpoints, and both components move monotonically
in the direction of the corresponding delta along the sequence. -/
theorem line_bbox_monotone (a b : Coord) (fuel : ℕ)
    (hB : chebDist a b < 2 ^ 23) (hf : chebDist a b + 1 ≤ fuel) :
    (∀ c ∈ LineIter.emit fuel (line a b), inBBox a b c) ∧
    List.Chain' (monoStep a b) (LineIter.emit fuel (line a b)) := by
  rw [line_emit_eq_exact a b hB fuel]
  exact lineX_bbox_monotone a b fuel hf

/-- Witness for claim C10 at endpoints (0,0), (3,1) and fuel 4. -/
theorem line_bbox_monotone_witness :
    (∀ c ∈ LineIter.emit 4 (line ⟨0, 0⟩ ⟨3, 1⟩), inBBox ⟨0, 0⟩ ⟨3, 1⟩ c) ∧
    List.Chain' (monoStep ⟨0, 0⟩ ⟨3, 1⟩) (LineIter.emit 4 (line ⟨0, 0⟩ ⟨3, 1⟩)) :=
  line_bbox_monotone ⟨0, 0⟩ ⟨3, 1⟩ 4 (by decide) (by decide)

/-- Counterexample to claim C10 as stated: at endpoints (0,0) and (2^30,1)
the stuck iterator overshoots the rectangle — the coordinate (2^30+1, 0) is
emitted although its x-component exceeds both endpoints'. -/
theorem line_bbox_monotone_cex :
    (⟨1073741825, 0⟩ : Coord) ∈ LineIter.emit 1073741826 (line ⟨0, 0⟩ ⟨1073741824, 1⟩) ∧
    ¬inBBox ⟨0, 0⟩ ⟨1073741824, 1⟩ ⟨1073741825, 0⟩ := by
  constructor
  · rw [line_emit_stuck]
    refine List.mem_map.2 ⟨1073741825, List.mem_range.2 (by decide), ?_⟩
    rw [Coord.ext_iff]
    exact ⟨by decide, rfl⟩
  · intro h
    simp only [inBBox] at h
    omega
